import Mathlib

/-!
Verification of the invocation-and-materialization core of the abstract-mcp
proxy (src/src/core.ts and the tool handler in src/unnamed/part_010).

Strings are modelled as `List Char` so the character-level operations of the
source (path resolution, CSV quoting, JSON escaping) are explicit.  JavaScript
dynamic values are modelled by the tagged variant `JValue`; JSON numbers are
modelled as integers (no claim involves fractional numbers), and `undefined`
does not occur inside a `JValue` (all values entering the pipeline come from
JSON parsing or literal construction).
-/

namespace AbstractMcp

/-- A JSON-style dynamic value, as passed around by the TypeScript core. -/
inductive JValue where
  | jnull : JValue
  | jbool (b : Bool) : JValue
  | jnum (n : Int) : JValue
  | jstr (s : List Char) : JValue
  | jarr (xs : List JValue) : JValue
  | jobj (fields : List (List Char × JValue)) : JValue

/-! ## Path resolution (model of Node's `path.resolve` / `path.sep`, POSIX) -/

/-- One component of a filesystem path. -/
abbrev Comp := List Char

/-- Split a character string at every occurrence of `sep` (the semantics of
JavaScript `String.prototype.split` with a one-character separator); the
resulting pieces never contain `sep`, and the list is never empty. -/
def splitOnChar (sep : Char) : List Char → List (List Char)
  | [] => [[]]
  | c :: rest =>
    match splitOnChar sep rest with
    | [] => [[]]
    | h :: t => if c = sep then [] :: h :: t else (c :: h) :: t

/-- Split a character string on `'/'` (scanning a POSIX path into its
slash-separated pieces). -/
def splitChars : List Char → List Comp := splitOnChar '/'

/-- One normalization step of path resolution: empty and `.` components are
dropped, `..` removes the previous component (a no-op at the root), and any
other component is kept. -/
def normStep (acc : List Comp) (c : Comp) : List Comp :=
  if c = [] ∨ c = ['.'] then acc
  else if c = ['.', '.'] then acc.dropLast
  else acc ++ [c]

/-- Model of Node's `path.resolve(p)` with current working directory `cwd`
(given as already-resolved components): an absolute `p` is normalized from
the root, a relative `p` is normalized on top of `cwd`.  The result is the
component list of the canonical absolute path. -/
def resolvePath (cwd : List Comp) (p : List Char) : List Comp :=
  let base := if p.head? = some '/' then [] else cwd
  (splitChars p).foldl normStep base

/-- Render path components with a leading slash before each component
(`["a","b"] ↦ "/a/b"`); the empty list renders to nothing. -/
def tailPath : List Comp → List Char
  | [] => []
  | c :: cs => '/' :: (c ++ tailPath cs)

/-- The string Node's `path.resolve` returns: `"/"` for the root, otherwise
the slash-joined components. -/
def renderPath (cs : List Comp) : List Char :=
  if cs = [] then ['/'] else tailPath cs

/-! ## Directory Guard (`validatePath`, src/src/core.ts lines 9-19)

```ts
export function validatePath(targetPath: string, allowedDirs: string[]): boolean {
  try {
    const resolved = path.resolve(targetPath);
    return allowedDirs.some(dir => {
      const allowedDir = path.resolve(dir);
      return resolved.startsWith(allowedDir + path.sep) || resolved === allowedDir;
    });
  } catch {
    return false;
  }
}
```
A `null` argument (modelled by `none`) makes `path.resolve` throw, which the
`catch` turns into `false`.  JavaScript `startsWith` is character-prefix
testing and `===` on strings is character equality. -/
def validatePath (cwd : List Comp) (targetPath : Option (List Char))
    (allowedDirs : List (List Char)) : Bool :=
  match targetPath with
  | none => false
  | some p =>
    let resolved := renderPath (resolvePath cwd p)
    allowedDirs.any fun dir =>
      let allowedDir := renderPath (resolvePath cwd dir)
      (allowedDir ++ ['/']).isPrefixOf resolved || resolved == allowedDir

/-! ## File naming (`getFileExtension`, `generateCacheFilePath`,
src/src/core.ts lines 541-565) -/

/-- `getFileExtension` (src/src/core.ts lines 541-553). -/
def getFileExtension (format : List Char) : List Char :=
  if format = "csv".data then ".csv".data
  else if format = "tsv".data then ".tsv".data
  else if format = "md".data then ".md".data
  else if format = "txt".data then ".txt".data
  else if format = "html".data then ".html".data
  else if format = "yaml".data then ".yaml".data
  else if format = "xml".data then ".xml".data
  else ".json".data

/-- Node's `path.join(a, b)`, modelled without its final normalization pass:
the two segments are glued with one separator.  The omitted normalization is
absorbed whenever the result is fed to `resolvePath`, because resolving the
normalized join and resolving the raw concatenation yield the same canonical
components. -/
def joinPath (a b : List Char) : List Char := a ++ '/' :: b

/-- `generateCacheFilePath` (src/src/core.ts lines 556-565).  The `uuid()`
used for the default filename is an external input, passed explicitly.
Throwing is modelled by `Except.error`. -/
def generateCacheFilePath (cwd : List Comp) (targetDir : List Char)
    (allowedDirs : Option (List (List Char))) (filename : Option (List Char))
    (format : Option (List Char)) (uuidStr : List Char) :
    Except (List Char) (List Char) :=
  let failsCheck :=
    match allowedDirs with
    | some dirs => !validatePath cwd (some targetDir) dirs
    | none => false
  if failsCheck then
    .error ("Target directory ".data ++ targetDir ++
      " is not within allowed directories".data)
  else
    let extension := getFileExtension ((format.getD "json".data))
    let finalFilename :=
      match filename with
      | some f => f ++ extension
      | none => uuidStr ++ extension
    .ok (joinPath targetDir finalFilename)

/-! ## Generic string helpers shared by the Format Codec -/

/-- Join pieces with a one-character separator (JavaScript `Array.join`). -/
def joinSep (sep : Char) : List (List Char) → List Char
  | [] => []
  | [x] => x
  | x :: xs => x ++ sep :: joinSep sep xs

/-- The characters removed by JavaScript `String.prototype.trim` (the ASCII
whitespace relevant to this code base). -/
def isWSChar (c : Char) : Bool :=
  c = ' ' || c = '\t' || c = '\n' || c = '\r' || c = '\x0b' || c = '\x0c'

/-- JavaScript `String.prototype.trim`: strip whitespace from both ends. -/
def trimChars (l : List Char) : List Char :=
  ((l.dropWhile isWSChar).reverse.dropWhile isWSChar).reverse

mutual

/-- `String(value)` for a dynamic value (JavaScript string coercion): strings
pass through, numbers and booleans print, `null` prints `"null"`, an array
joins its members with commas (a `null` member renders empty), and a plain
object prints `"[object Object]"`. -/
def jToString : JValue → List Char
  | .jnull => "null".data
  | .jbool b => if b then "true".data else "false".data
  | .jnum n => (toString n).data
  | .jstr s => s
  | .jarr xs => jToStringArr xs
  | .jobj _ => "[object Object]".data

def jToStringArr : List JValue → List Char
  | [] => []
  | [.jnull] => []
  | [x] => jToString x
  | .jnull :: xs => ',' :: jToStringArr xs
  | x :: xs => jToString x ++ ',' :: jToStringArr xs

end

/-- JavaScript property access `v[k]`: a field lookup on a plain object,
`undefined` (here `none`) on anything else.  (Character indexing of strings
is not modelled; no caller in this code base reaches it.) -/
def jGet : JValue → List Char → Option JValue
  | .jobj fs, k => (fs.find? (fun p => p.1 == k)).map (·.2)
  | _, _ => none

/-- `Object.keys(v)`: the field names of a plain object.  The callers in this
code base only apply it to values guarded to be plain objects. -/
def jKeys : JValue → List (List Char)
  | .jobj fs => fs.map (·.1)
  | _ => []

/-! ## CSV / TSV encoding (`convertArrayToCSV`, `convertArrayToTSV`,
src/src/core.ts lines 382-417) -/

/-- Double every `"` in a string (the `replace(/"/g, '""')` of the source). -/
def escQuotes : List Char → List Char
  | [] => []
  | c :: r => if c = '"' then '"' :: '"' :: escQuotes r else c :: escQuotes r

/-- RFC-4180-style escaping of one CSV cell: wrap in quotes and double the
embedded quotes exactly when the cell contains a comma or a quote. -/
def csvField (s : List Char) : List Char :=
  if s.contains ',' || s.contains '"' then '"' :: (escQuotes s ++ ['"']) else s

/-- The cell text the encoders read out of a row: `row[header]`, rendered by
`String(·)` unless it is `null`/`undefined`, which render empty. -/
def cellString (row : JValue) (header : List Char) : List Char :=
  match jGet row header with
  | some .jnull => []
  | some v => jToString v
  | none => []

/-- `convertArrayToCSV` (src/src/core.ts lines 382-400): header row of the
first object's keys, then one line per element with comma/quote escaping. -/
def convertArrayToCSV (data : List JValue) : List Char :=
  match data with
  | [] => []
  | d0 :: _ =>
    let headers := jKeys d0
    let csvRows :=
      joinSep ',' headers ::
      data.map (fun row => joinSep ',' (headers.map fun h => csvField (cellString row h)))
    joinSep '\n' csvRows

/-- `convertArrayToTSV` (src/src/core.ts lines 403-417): same layout joined
with tabs and no escaping. -/
def convertArrayToTSV (data : List JValue) : List Char :=
  match data with
  | [] => []
  | d0 :: _ =>
    let headers := jKeys d0
    let tsvRows :=
      joinSep '\t' headers ::
      data.map (fun row => joinSep '\t' (headers.map fun h => cellString row h))
    joinSep '\n' tsvRows

/-! ## CSV / TSV parsing (`parseCSVContent`, `parseTSVContent`,
src/src/core.ts lines 1181-1280) -/

/-- The quote-aware field scanner `parseCSVRow` inside `parseCSVContent`
(src/src/core.ts lines 1195-1225): `cur` is the field being accumulated and
`inQuotes` the quoting state.  The source peeks at `row[i + 1]` for the
escaped-quote case, so the scan is written on two leading characters; the
one-character case is the loop's final iteration (where the lookahead is
`undefined` and the loop ends by pushing the final field). -/
def parseCSVRowAux (cur : List Char) (inQuotes : Bool) : List Char → List (List Char)
  | [] => [cur]
  | [c] =>
    if c = '"' then [cur]
    else if c = ',' && !inQuotes then [cur, []]
    else [cur ++ [c]]
  | c :: c2 :: rest =>
    if c = '"' then
      if inQuotes && c2 = '"' then parseCSVRowAux (cur ++ ['"']) inQuotes rest
      else parseCSVRowAux cur (!inQuotes) (c2 :: rest)
    else if c = ',' && !inQuotes then cur :: parseCSVRowAux [] false (c2 :: rest)
    else parseCSVRowAux (cur ++ [c]) inQuotes (c2 :: rest)

/-- Scan one CSV record into its fields. -/
def parseCSVRow (row : List Char) : List (List Char) := parseCSVRowAux [] false row

/-- JavaScript assignment `obj[k] = v` on the association-list model of an
object: update in place if the key exists, append otherwise. -/
def jsSetField (fs : List (List Char × JValue)) (k : List Char) (v : JValue) :
    List (List Char × JValue) :=
  if fs.any (fun p => p.1 == k) then fs.map (fun p => if p.1 == k then (k, v) else p)
  else fs ++ [(k, v)]

/-- Build one parsed record from the header fields and the row's values
(the `headers.forEach` of the source; the `values[i] || ''` turns a missing
or empty cell into the empty string, which for equal-length lists is the
identity on our model). -/
def mkRowFields (headers values : List (List Char)) : List (List Char × JValue) :=
  (headers.zip values).foldl (fun m kv => jsSetField m kv.1 (.jstr kv.2)) []

/-- The error reported for a record whose field count differs from the
header's. -/
def rowCountMsg (rowNum got expected : Nat) : List Char :=
  "Row ".data ++ (toString rowNum).data ++ " has ".data ++
    (toString got).data ++ " columns, expected ".data ++
    (toString expected).data ++ " based on headers".data

/-- The `dataRows.map` body of `parseCSVContent`: check each record's field
count against the header count (reporting `index + 2` as the row number) and
build the record objects; the first offending record aborts the whole parse,
as a thrown exception does in the source. -/
def parseCSVRecords (headers : List (List Char)) : Nat → List (List Char) →
    Except (List Char) (List JValue)
  | _, [] => .ok []
  | idx, line :: rest =>
    let values := parseCSVRow line
    if values.length ≠ headers.length then
      .error (rowCountMsg (idx + 2) values.length headers.length)
    else
      match parseCSVRecords headers (idx + 1) rest with
      | .error e => .error e
      | .ok rs => .ok (.jobj (mkRowFields headers values) :: rs)

/-- The line-cleaning stage of `parseCSVContent` (src/src/core.ts lines
1182-1184): split on newlines, trim every line, drop blank lines. -/
def cleanLines (content : List Char) : List (List Char) :=
  ((splitOnChar '\n' content).map trimChars).filter (fun l => !l.isEmpty)

/-- `parseCSVContent` (src/src/core.ts lines 1181-1243): clean the lines;
empty content and header-only content are distinct errors; otherwise the
first line is the header record and every later line a data record. -/
def parseCSVContent (content : List Char) : Except (List Char) (List JValue) :=
  match cleanLines content with
  | [] => .error "CSV file is empty".data
  | [_] => .error "CSV file contains only headers, no data rows".data
  | l0 :: rest => parseCSVRecords (parseCSVRow l0) 0 rest

/-! ## JSON serialization (`JSON.stringify`, with and without the 2-space
indent used throughout src/src/core.ts) -/

/-- Lower-case hexadecimal digit. -/
def hexDigit (n : Nat) : Char :=
  if n < 10 then Char.ofNat ('0'.toNat + n) else Char.ofNat ('a'.toNat + n - 10)

/-- JSON escaping of one character inside a string literal. -/
def escJsonChar (c : Char) : List Char :=
  if c = '"' then ['\\', '"']
  else if c = '\\' then ['\\', '\\']
  else if c = '\n' then ['\\', 'n']
  else if c = '\r' then ['\\', 'r']
  else if c = '\t' then ['\\', 't']
  else if c = '\x08' then ['\\', 'b']
  else if c = '\x0c' then ['\\', 'f']
  else if c.toNat < 32 then
    ['\\', 'u', '0', '0', hexDigit (c.toNat / 16), hexDigit (c.toNat % 16)]
  else [c]

/-- A JSON string literal: quoted and escaped. -/
def jsonQuote (s : List Char) : List Char :=
  '"' :: ((s.map escJsonChar).flatten ++ ['"'])

/-- `n` spaces. -/
def indentSp (n : Nat) : List Char := List.replicate n ' '

mutual

/-- `JSON.stringify(v, null, 2)`: pretty printing with two-space indentation;
`ind` is the indentation depth of the position where `v` is printed. -/
def prettyJson : Nat → JValue → List Char
  | _, .jnull => "null".data
  | _, .jbool b => if b then "true".data else "false".data
  | _, .jnum n => (toString n).data
  | _, .jstr s => jsonQuote s
  | ind, .jarr xs =>
    match xs with
    | [] => "[]".data
    | _ => '[' :: '\n' :: (prettyItems (ind + 2) xs ++ '\n' :: (indentSp ind ++ [']']))
  | ind, .jobj fs =>
    match fs with
    | [] => "{}".data
    | _ => '{' :: '\n' :: (prettyFields (ind + 2) fs ++ '\n' :: (indentSp ind ++ ['}']))

def prettyItems : Nat → List JValue → List Char
  | _, [] => []
  | ind, [x] => indentSp ind ++ prettyJson ind x
  | ind, x :: xs =>
    (indentSp ind ++ prettyJson ind x) ++ ',' :: '\n' :: prettyItems ind xs

def prettyFields : Nat → List (List Char × JValue) → List Char
  | _, [] => []
  | ind, [(k, v)] => indentSp ind ++ (jsonQuote k ++ ':' :: ' ' :: prettyJson ind v)
  | ind, (k, v) :: fs =>
    (indentSp ind ++ (jsonQuote k ++ ':' :: ' ' :: prettyJson ind v)) ++
      ',' :: '\n' :: prettyFields ind fs

end

mutual

/-- `JSON.stringify(v)`: the compact serialization (no added whitespace). -/
def stringifyCompact : JValue → List Char
  | .jnull => "null".data
  | .jbool b => if b then "true".data else "false".data
  | .jnum n => (toString n).data
  | .jstr s => jsonQuote s
  | .jarr xs => '[' :: (compactItems xs ++ [']'])
  | .jobj fs => '{' :: (compactFields fs ++ ['}'])

def compactItems : List JValue → List Char
  | [] => []
  | [x] => stringifyCompact x
  | x :: xs => stringifyCompact x ++ ',' :: compactItems xs

def compactFields : List (List Char × JValue) → List Char
  | [] => []
  | [(k, v)] => jsonQuote k ++ ':' :: stringifyCompact v
  | (k, v) :: fs => (jsonQuote k ++ ':' :: stringifyCompact v) ++ ',' :: compactFields fs

end

/-- UTF-8 byte count of one Unicode scalar. -/
def utf8CharLen (c : Char) : Nat :=
  if c.toNat < 0x80 then 1
  else if c.toNat < 0x800 then 2
  else if c.toNat < 0x10000 then 3
  else 4

/-- `Buffer.byteLength(s)`: the UTF-8 byte length of a string. -/
def utf8Len (s : List Char) : Nat := (s.map utf8CharLen).sum

/-! ## JSON parsing (model of `JSON.parse`)

The parser is fuel-driven recursive descent.  Numbers are modelled as
integers: fractional and exponent literals are outside the model (no claim
involves them), as are surrogate-pair recombination for `\u` escapes and the
leading-zero restriction. -/

/-- JSON insignificant whitespace. -/
def jsonWS (l : List Char) : List Char :=
  l.dropWhile (fun c => c = ' ' || c = '\t' || c = '\n' || c = '\r')

/-- Is the character a hexadecimal digit? -/
def isHex (c : Char) : Bool :=
  c.isDigit || ('a' <= c && c <= 'f') || ('A' <= c && c <= 'F')

/-- Value of one hexadecimal digit. -/
def hexVal (c : Char) : Nat :=
  if c.isDigit then c.toNat - '0'.toNat
  else if 'a' ≤ c && c ≤ 'f' then c.toNat - 'a'.toNat + 10
  else if 'A' ≤ c && c ≤ 'F' then c.toNat - 'A'.toNat + 10
  else 0

/-- Parse the body of a JSON string literal (after the opening quote),
returning the decoded characters and the input after the closing quote. -/
def parseJStringAux : Nat → List Char → Option (List Char × List Char)
  | 0, _ => none
  | _, [] => none
  | fuel + 1, c :: rest =>
    if c = '"' then some ([], rest)
    else if c = '\\' then
      match rest with
      | [] => none
      | e :: rest2 =>
        let dec :=
          if e = '"' then some ('"', rest2)
          else if e = '\\' then some ('\\', rest2)
          else if e = '/' then some ('/', rest2)
          else if e = 'b' then some ('\x08', rest2)
          else if e = 'f' then some ('\x0c', rest2)
          else if e = 'n' then some ('\n', rest2)
          else if e = 'r' then some ('\r', rest2)
          else if e = 't' then some ('\t', rest2)
          else if e = 'u' then
            match rest2 with
            | h1 :: h2 :: h3 :: h4 :: rest6 =>
              if isHex h1 && isHex h2 && isHex h3 && isHex h4 then
                some (Char.ofNat
                  (hexVal h1 * 4096 + hexVal h2 * 256 + hexVal h3 * 16 + hexVal h4), rest6)
              else none
            | _ => none
          else none
        match dec with
        | none => none
        | some (ch, r) => (parseJStringAux fuel r).map (fun p => (ch :: p.1, p.2))
    else if c.toNat < 32 then none
    else (parseJStringAux fuel rest).map (fun p => (c :: p.1, p.2))

/-- Numeric value of a digit run. -/
def digitsVal (ds : List Char) : Nat :=
  ds.foldl (fun a c => a * 10 + (c.toNat - '0'.toNat)) 0

mutual

/-- Parse one JSON value (leading whitespace allowed). -/
def parseJValue : Nat → List Char → Option (JValue × List Char)
  | 0, _ => none
  | fuel + 1, l =>
    match jsonWS l with
    | [] => none
    | c :: rest =>
      if c = 'n' then
        if "ull".data.isPrefixOf rest then some (.jnull, rest.drop 3) else none
      else if c = 't' then
        if "rue".data.isPrefixOf rest then some (.jbool true, rest.drop 3) else none
      else if c = 'f' then
        if "alse".data.isPrefixOf rest then some (.jbool false, rest.drop 4) else none
      else if c = '"' then
        (parseJStringAux fuel rest).map (fun p => (.jstr p.1, p.2))
      else if c = '[' then
        parseJElems fuel true rest
      else if c = '{' then
        parseJMembers fuel true [] rest
      else if c = '-' then
        match rest.span (·.isDigit) with
        | ([], _) => none
        | (ds, r) => some (.jnum (-(digitsVal ds : Int)), r)
      else if c.isDigit then
        match (c :: rest).span (·.isDigit) with
        | (ds, r) => some (.jnum (digitsVal ds : Int), r)
      else none

/-- Parse the elements of a JSON array after `[` (when `first` is true) or
after a separating comma. -/
def parseJElems : Nat → Bool → List Char → Option (JValue × List Char)
  | 0, _, _ => none
  | fuel + 1, first, l =>
    match jsonWS l with
    | ']' :: rest => if first then some (.jarr [], rest) else none
    | l' =>
      match parseJValue fuel l' with
      | none => none
      | some (v, r) =>
        match jsonWS r with
        | ',' :: r2 =>
          match parseJElems fuel false r2 with
          | some (.jarr vs, r3) => some (.jarr (v :: vs), r3)
          | _ => none
        | ']' :: r2 => some (.jarr [v], r2)
        | _ => none

/-- Parse the members of a JSON object after `{` (when `first` is true) or
after a separating comma; duplicate keys follow JavaScript semantics (the
later value wins in the earlier position) via `jsSetField`. -/
def parseJMembers : Nat → Bool → List (List Char × JValue) → List Char →
    Option (JValue × List Char)
  | 0, _, _, _ => none
  | fuel + 1, first, acc, l =>
    match jsonWS l with
    | '}' :: rest => if first then some (.jobj acc, rest) else none
    | '"' :: rest =>
      match parseJStringAux fuel rest with
      | none => none
      | some (k, r) =>
        match jsonWS r with
        | ':' :: r2 =>
          match parseJValue fuel r2 with
          | none => none
          | some (v, r3) =>
            match jsonWS r3 with
            | ',' :: r4 => parseJMembers fuel false (jsSetField acc k v) r4
            | '}' :: r4 => some (.jobj (jsSetField acc k v), r4)
            | _ => none
        | _ => none
    | _ => none

end

/-- `JSON.parse(s)`: parse one value and require only whitespace after it. -/
def jsonParse (s : List Char) : Option JValue :=
  match parseJValue (2 * s.length + 8) s with
  | some (v, rest) => if jsonWS rest = [] then some v else none
  | none => none

/-! ## Envelope Extractor (`extractActualContent`, src/src/core.ts lines
300-321) -/

/-- `extractActualContent`: unwrap the MCP content envelope.  A `content`
field holding an array with exactly one `text`-typed item is re-parsed as
JSON, falling back to the raw text; any other content array is returned
as-is; any other input is returned unchanged.

Two unreachable corners of the dynamic source are noted explicitly:
a `text`-typed item whose `text` field is a non-string is coerced to a
string before `JSON.parse` (JavaScript coercion), and a `text`-typed item
with no `text` field at all would propagate `undefined` in JavaScript —
JSON-derived envelopes cannot produce it, and `jnull` stands in for it. -/
def extractActualContent (response : JValue) : JValue :=
  match jGet response "content".data with
  | some (.jarr xs) =>
    match xs with
    | [item] =>
      match jGet item "type".data with
      | some (.jstr t) =>
        if t = "text".data then
          match jGet item "text".data with
          | some (.jstr s) => (jsonParse s).getD (.jstr s)
          | some v => (jsonParse (jToString v)).getD v
          | none => .jnull
        else .jarr xs
      | _ => .jarr xs
    | _ => .jarr xs
  | _ => response

/-! ## Format-specific rendering helpers (src/src/core.ts lines 420-528) -/

/-- JavaScript `String.prototype.includes`: substring containment. -/
def hasSubstr (s pat : List Char) : Bool := decide (pat <:+: s)

/-- `extractHtmlContent` (src/src/core.ts lines 420-442). -/
def extractHtmlContent (actualContent : JValue) : List Char :=
  let textContent :=
    match actualContent with
    | .jstr s => s
    | v => prettyJson 0 v
  if hasSubstr textContent "<html".data || hasSubstr textContent "<!DOCTYPE".data ||
      (textContent.contains '<' && textContent.contains '>') then
    textContent
  else
    "<!DOCTYPE html>\n<html>\n<head>\n    <title>Response</title>\n</head>\n<body>\n<pre>".data ++
      textContent ++ "</pre>\n</body>\n</html>".data

/-- Indentation used by the YAML/XML renderers: two spaces per level. -/
def repSpaces (ind : Nat) : List Char := List.replicate (2 * ind) ' '

mutual

/-- `convertToYaml` (src/src/core.ts lines 466-485). -/
def convertToYaml : JValue → Nat → List Char
  | .jarr xs, ind => joinSep '\n' (yamlItems xs ind)
  | .jobj fs, ind => joinSep '\n' (yamlFields fs ind)
  | v, _ => jToString v

def yamlItems : List JValue → Nat → List (List Char)
  | [], _ => []
  | x :: xs, ind =>
    (repSpaces ind ++ '-' :: ' ' :: trimChars (convertToYaml x (ind + 1))) :: yamlItems xs ind

def yamlFields : List (List Char × JValue) → Nat → List (List Char)
  | [], _ => []
  | (k, v) :: fs, ind =>
    (match v with
     | .jarr ys => repSpaces ind ++ k ++ ':' :: '\n' :: convertToYaml (.jarr ys) (ind + 1)
     | .jobj gs => repSpaces ind ++ k ++ ':' :: '\n' :: convertToYaml (.jobj gs) (ind + 1)
     | w => repSpaces ind ++ k ++ ':' :: ' ' :: jToString w) :: yamlFields fs ind

end

/-- `extractYamlContent` (src/src/core.ts lines 447-463): objects and arrays
render via `convertToYaml`; a string returns itself (whether or not it passes
the yaml-look test, both of those branches return the string); anything else
is pretty JSON. -/
def extractYamlContent (actualContent : JValue) : List Char :=
  match actualContent with
  | .jarr xs => convertToYaml (.jarr xs) 0
  | .jobj fs => convertToYaml (.jobj fs) 0
  | .jstr s => s
  | v => prettyJson 0 v

mutual

/-- `convertToXml` (src/src/core.ts lines 509-528). -/
def convertToXml : JValue → Nat → List Char
  | .jarr xs, ind => joinSep '\n' (xmlItems xs ind)
  | .jobj fs, ind => joinSep '\n' (xmlFields fs ind)
  | v, _ => jToString v

def xmlItems : List JValue → Nat → List (List Char)
  | [], _ => []
  | x :: xs, ind =>
    (repSpaces ind ++ "<item>".data ++ convertToXml x 0 ++ "</item>".data) :: xmlItems xs ind

def xmlFields : List (List Char × JValue) → Nat → List (List Char)
  | [], _ => []
  | (k, v) :: fs, ind =>
    (match v with
     | .jarr ys =>
       repSpaces ind ++ '<' :: (k ++ '>' :: '\n' ::
         (convertToXml (.jarr ys) (ind + 1) ++ '\n' ::
           (repSpaces ind ++ '<' :: '/' :: (k ++ ['>']))))
     | .jobj gs =>
       repSpaces ind ++ '<' :: (k ++ '>' :: '\n' ::
         (convertToXml (.jobj gs) (ind + 1) ++ '\n' ::
           (repSpaces ind ++ '<' :: '/' :: (k ++ ['>']))))
     | w => repSpaces ind ++ '<' :: (k ++ '>' :: (jToString w ++ '<' :: '/' :: (k ++ ['>'])))) ::
    xmlFields fs ind

end

/-- `extractXmlContent` (src/src/core.ts lines 488-506). -/
def extractXmlContent (actualContent : JValue) : List Char :=
  let textContent :=
    match actualContent with
    | .jstr s => s
    | v => prettyJson 0 v
  if "<?xml".data.isPrefixOf textContent ||
      (textContent.contains '<' && hasSubstr textContent "</".data) then
    textContent
  else
    match actualContent with
    | .jarr xs =>
      "<?xml version=\"1.0\" encoding=\"UTF-8\"?>\n<root>\n".data ++
        convertToXml (.jarr xs) 1 ++ "\n</root>".data
    | .jobj fs =>
      "<?xml version=\"1.0\" encoding=\"UTF-8\"?>\n<root>\n".data ++
        convertToXml (.jobj fs) 1 ++ "\n</root>".data
    | _ =>
      "<?xml version=\"1.0\" encoding=\"UTF-8\"?>\n<root>".data ++
        textContent ++ "</root>".data

/-! ## `extractContent` (src/src/core.ts lines 324-379)

`console.warn` side effects are modelled by returning, next to the output
text, the list of warning messages the call logs. -/

/-- Warning logged when CSV is requested for non-tabular data. -/
def csvWarning : List Char :=
  "Content is not tabular data, storing as JSON with .csv extension".data

/-- Warning logged when TSV is requested for non-tabular data. -/
def tsvWarning : List Char :=
  "Content is not tabular data, storing as JSON with .tsv extension".data

/-- Warning logged for an unknown format. -/
def unknownFormatWarning (format : List Char) : List Char :=
  "Unknown format '".data ++ format ++ "', defaulting to JSON".data

/-- `extractContent`: unwrap the envelope, then convert to the requested
format.  The `csv`/`tsv` branches treat the value as tabular exactly when it
is a non-empty array whose FIRST element is a non-null, non-array object;
otherwise they fall back to pretty JSON with a warning. -/
def extractContent (response : JValue) (format : List Char) :
    List Char × List (List Char) :=
  let actualContent := extractActualContent response
  if format = "json".data then
    (prettyJson 0 actualContent, [])
  else if format = "txt".data || format = "md".data then
    (match actualContent with
     | .jstr s => s
     | v => prettyJson 0 v, [])
  else if format = "html".data then
    (extractHtmlContent actualContent, [])
  else if format = "csv".data then
    match actualContent with
    | .jarr (.jobj f0 :: rest) => (convertArrayToCSV (.jobj f0 :: rest), [])
    | v => (prettyJson 0 v, [csvWarning])
  else if format = "tsv".data then
    match actualContent with
    | .jarr (.jobj f0 :: rest) => (convertArrayToTSV (.jobj f0 :: rest), [])
    | v => (prettyJson 0 v, [tsvWarning])
  else if format = "yaml".data then
    (extractYamlContent actualContent, [])
  else if format = "xml".data then
    (extractXmlContent actualContent, [])
  else
    (prettyJson 0 actualContent, [unknownFormatWarning format])

/-! ## Materializer pieces (`createCacheData`, `createResourceLink`,
src/src/core.ts lines 288-297 and 568-575; the `call_tool_and_store`
handler, src/unnamed/part_010 lines 105-149) -/

/-- `createCacheData`: the metadata wrapper cached alongside a response.
`new Date().toISOString()` is an external input, passed as `timestamp`. -/
def createCacheData (toolName : List Char) (toolArgs : JValue) (response : JValue)
    (description : Option (List Char)) (timestamp : List Char) : JValue :=
  .jobj [("tool_name".data, .jstr toolName),
         ("tool_args".data, toolArgs),
         ("response".data, response),
         ("description".data, .jstr (description.getD ("Response from ".data ++ toolName))),
         ("timestamp".data, .jstr timestamp),
         ("type".data, .jstr "upstream_tool_response".data)]

/-- The record returned by `createResourceLink`. -/
structure ResourceLink where
  atType : List Char
  uri : List Char
  bytes : Nat
  description : List Char

/-- `createResourceLink`: the pointer handed back instead of the payload;
`bytes` is `Buffer.byteLength(JSON.stringify(data))`. -/
def createResourceLink (filePath : List Char) (data : JValue)
    (description : Option (List Char)) : ResourceLink :=
  { atType := "resourceLink".data
    uri := "file://".data ++ filePath
    bytes := utf8Len (stringifyCompact data)
    description := description.getD "Cached tool response".data }

/-- The data-flow of the `call_tool_and_store` handler after the upstream
call returns (src/unnamed/part_010 lines 122-140): extract and convert the
response, and build the resource link from the cache record of the
unconverted upstream response.  Returns the written file content (with its
logged warnings) and the resource link. -/
def materializeStore (response : JValue) (server toolName : List Char)
    (toolArgs : JValue) (description : Option (List Char)) (format : List Char)
    (timestamp filePath : List Char) :
    (List Char × List (List Char)) × ResourceLink :=
  let extracted := extractContent response format
  let cacheData :=
    createCacheData (server ++ ':' :: toolName) toolArgs response description timestamp
  (extracted,
   createResourceLink filePath cacheData
     (some (description.getD ("Response from ".data ++ server ++ ':' :: toolName))))

/-! ## File Ingestor argument merge (`mergeFileDataWithArgs`,
src/src/core.ts lines 1353-1373) -/

/-- The conflict error message. -/
def conflictMsg (k : List Char) : List Char :=
  "Conflict: data_key '".data ++ k ++
    "' already exists in tool_args. Choose a different data_key or remove the conflicting parameter.".data

/-- `mergeFileDataWithArgs`.  The `if (!dataKey)` of the source treats both
an absent `data_key` and the empty string (both falsy) as "no data key"; the
conflict test `toolArgs && toolArgs[dataKey] !== undefined` is key presence
(arguments parsed from JSON never hold `undefined`). -/
def mergeFileDataWithArgs (fileContent : JValue) (dataKey : Option (List Char))
    (toolArgs : Option (List (List Char × JValue))) : Except (List Char) JValue :=
  match dataKey with
  | none => .ok fileContent
  | some k =>
    if k = [] then .ok fileContent
    else if toolArgs.isSome && (toolArgs.getD []).any (fun p => p.1 == k) then
      .error (conflictMsg k)
    else
      .ok (.jobj (jsSetField (toolArgs.getD []) k fileContent))

/-! ## Shared example values -/

/-- A flat string-keyed, string-valued record as a dynamic object (the
shape of the values the CSV round-trip claim quantifies over). -/
def rowToJ (r : List (List Char × List Char)) : JValue :=
  .jobj (r.map (fun kv => (kv.1, JValue.jstr kv.2)))

/-- The upstream envelope of the spec's end-to-end scenario: one text item
holding the JSON array `[{"name":"A"},{"name":"B"}]`. -/
def specExampleEnvelope : JValue :=
  .jobj [("content".data, .jarr [.jobj [("type".data, .jstr "text".data),
    ("text".data, .jstr "[\x7b\"name\":\"A\"\x7d,\x7b\"name\":\"B\"\x7d]".data)]])]

/-! ## Claims -/

/-- C1 (code-bug evidence): the claim that every materialized path stays
inside the allow-list fails when the caller supplies an explicit filename
containing a traversal sequence.  With allow-list `["/data"]` and filename
`"../evil"`, `generateCacheFilePath` accepts the (valid) target directory and
returns `/data/../evil.json`, which resolves to `/evil.json` — a path the
code's own `validatePath` rejects against the same allow-list. -/
theorem c1_explicit_filename_escapes_allowlist :
    generateCacheFilePath [] "/data".data (some ["/data".data]) (some "../evil".data)
        (some "json".data) "u".data = .ok "/data/../evil.json".data ∧
    renderPath (resolvePath [] "/data/../evil.json".data) = "/evil.json".data ∧
    validatePath [] (some "/data/../evil.json".data) ["/data".data] = false :=
  ⟨rfl, rfl, rfl⟩

set_option maxRecDepth 32768 in
/-- C3: the `bytes` field of the resource link returned by the
`call_tool_and_store` handler is computed from the JSON serialization of the
cache record built around the unconverted upstream response — so it does not
depend on the requested file format at all — and on the spec's end-to-end
example (the `[{"name":"A"},{"name":"B"}]` payload requested as `csv`) it
differs from the byte length of the converted CSV file that is written. -/
theorem c3_bytes_reflect_preconversion_payload :
    (∀ (response : JValue) (server tool : List Char) (args : JValue)
        (desc : Option (List Char)) (fmt fmt' ts file : List Char),
      ((materializeStore response server tool args desc fmt ts file).2).bytes =
        ((materializeStore response server tool args desc fmt' ts file).2).bytes ∧
      ((materializeStore response server tool args desc fmt ts file).2).bytes =
        utf8Len (stringifyCompact
          (createCacheData (server ++ ':' :: tool) args response desc ts))) ∧
    ((materializeStore specExampleEnvelope "search-server".data "search".data
        (.jobj [("query".data, .jstr "x".data)]) none "csv".data "T".data
        "/d/f.csv".data).1.1 = "name\nA\nB".data ∧
      ((materializeStore specExampleEnvelope "search-server".data "search".data
        (.jobj [("query".data, .jstr "x".data)]) none "csv".data "T".data
        "/d/f.csv".data).2).bytes ≠
      utf8Len ((materializeStore specExampleEnvelope "search-server".data "search".data
        (.jobj [("query".data, .jstr "x".data)]) none "csv".data "T".data
        "/d/f.csv".data).1.1)) :=
  ⟨fun _ _ _ _ _ _ _ _ _ => ⟨rfl, rfl⟩, rfl, by decide⟩

/-- C6 (counterexample): serializing the zero-length array through
`extractContent` with `csv` or `tsv` does NOT yield the empty string — the
empty array fails the `length > 0` tabularity test, so the fallback stores
the pretty JSON `"[]"` (and warns). -/
theorem c6_counterexample_empty_array_not_empty_string :
    (extractContent (.jarr []) "csv".data).1 = "[]".data ∧
    (extractContent (.jarr []) "tsv".data).1 = "[]".data ∧
    "[]".data ≠ ([] : List Char) :=
  ⟨rfl, rfl, by decide⟩

/-- C6 (amended): the zero-length guard that yields the empty string lives in
the encoders `convertArrayToCSV`/`convertArrayToTSV` themselves; the
`extractContent` entry point never reaches them for an empty array — it takes
the non-tabular fallback, producing `"[]"` with a warning. -/
theorem c6_empty_array_serialization :
    convertArrayToCSV [] = [] ∧ convertArrayToTSV [] = [] ∧
    extractContent (.jarr []) "csv".data = (prettyJson 0 (.jarr []), [csvWarning]) ∧
    extractContent (.jarr []) "tsv".data = (prettyJson 0 (.jarr []), [tsvWarning]) ∧
    prettyJson 0 (.jarr []) = "[]".data :=
  ⟨rfl, rfl, rfl, rfl, rfl⟩

/-- C8: the argument-merge rule of the File Ingestor.  No data key: the file
content is the whole argument value.  A (non-empty) data key absent from the
extra arguments: the arguments extended with the key mapped to the file
content, everything else unchanged.  A data key already present: a conflict
error naming the key, never a silent overwrite. -/
theorem c8_merge_file_data_semantics :
    (∀ (fileContent : JValue) (toolArgs : Option (List (List Char × JValue))),
      mergeFileDataWithArgs fileContent none toolArgs = .ok fileContent) ∧
    (∀ (fileContent : JValue) (k : List Char) (args : List (List Char × JValue)),
      k ≠ [] → (∀ p ∈ args, p.1 ≠ k) →
      mergeFileDataWithArgs fileContent (some k) (some args) =
        .ok (.jobj (args ++ [(k, fileContent)]))) ∧
    (∀ (fileContent : JValue) (k : List Char), k ≠ [] →
      mergeFileDataWithArgs fileContent (some k) none =
        .ok (.jobj [(k, fileContent)])) ∧
    (∀ (fileContent : JValue) (k : List Char) (args : List (List Char × JValue)),
      k ≠ [] → (∃ p ∈ args, p.1 = k) →
      mergeFileDataWithArgs fileContent (some k) (some args) =
        .error (conflictMsg k)) := by
  refine ⟨fun _ _ => rfl, ?_, ?_, ?_⟩
  · intro fc k args hk habs
    have hany : args.any (fun p => p.1 == k) = false := by
      rw [List.any_eq_false]
      intro p hp
      simpa using habs p hp
    simp [mergeFileDataWithArgs, hk, hany, jsSetField]
  · intro fc k hk
    simp [mergeFileDataWithArgs, hk, jsSetField]
  · intro fc k args hk hconf
    have hany : args.any (fun p => p.1 == k) = true := by
      rw [List.any_eq_true]
      obtain ⟨p, hp, hpk⟩ := hconf
      exact ⟨p, hp, by simpa using hpk⟩
    simp [mergeFileDataWithArgs, hk, hany]

/-- C8 witness: the merge rule at concrete inputs (the spec's own examples:
no conflicting key, then a conflicting `x`). -/
theorem c8_merge_file_data_semantics_witness :
    mergeFileDataWithArgs (.jarr [.jobj [("a".data, .jnum 1)]]) (some "x".data) none =
      .ok (.jobj [("x".data, .jarr [.jobj [("a".data, .jnum 1)]])]) ∧
    mergeFileDataWithArgs (.jarr [.jobj [("a".data, .jnum 1)]]) (some "x".data)
        (some [("x".data, .jnum 1)]) = .error (conflictMsg "x".data) :=
  ⟨c8_merge_file_data_semantics.2.2.1 _ "x".data (by decide),
   c8_merge_file_data_semantics.2.2.2 _ "x".data [("x".data, .jnum 1)] (by decide)
     ⟨("x".data, .jnum 1), by simp, rfl⟩⟩

/-- C10: an empty-string `data_key` is falsy in the source's `if (!dataKey)`
test, so it behaves exactly like an absent key — the file content becomes the
whole argument value, the extra arguments are discarded, and no conflict
check runs; consequently a conflict error can only arise for a non-empty key
that is already present in the supplied arguments. -/
theorem c10_empty_data_key_is_absent :
    (∀ (fileContent : JValue) (toolArgs : Option (List (List Char × JValue))),
      mergeFileDataWithArgs fileContent (some []) toolArgs = .ok fileContent ∧
      mergeFileDataWithArgs fileContent (some []) toolArgs =
        mergeFileDataWithArgs fileContent none toolArgs) ∧
    (∀ (fileContent : JValue) (dataKey : Option (List Char))
        (toolArgs : Option (List (List Char × JValue))) (e : List Char),
      mergeFileDataWithArgs fileContent dataKey toolArgs = .error e →
      ∃ k, dataKey = some k ∧ k ≠ [] ∧
        ∃ args, toolArgs = some args ∧ args.any (fun p => p.1 == k) = true) := by
  refine ⟨fun _ _ => ⟨rfl, rfl⟩, ?_⟩
  intro fc dataKey toolArgs e herr
  match dataKey with
  | none => exact absurd herr (by simp [mergeFileDataWithArgs])
  | some k =>
    by_cases hk : k = []
    · subst hk
      exact absurd herr (by simp [mergeFileDataWithArgs])
    · refine ⟨k, rfl, hk, ?_⟩
      match toolArgs with
      | none => exact absurd herr (by simp [mergeFileDataWithArgs, hk])
      | some args =>
        refine ⟨args, rfl, ?_⟩
        by_contra hany
        rw [Bool.not_eq_true] at hany
        exact absurd herr (by simp [mergeFileDataWithArgs, hk, hany])

/-- C10 witness: the empty-string key at a concrete input, and the conflict
implication applied to a concrete raised error. -/
theorem c10_empty_data_key_is_absent_witness :
    mergeFileDataWithArgs (.jstr "f".data) (some []) (some [("a".data, .jnum 1)]) =
      .ok (.jstr "f".data) ∧
    ∃ k, (some "a".data : Option (List Char)) = some k ∧ k ≠ [] ∧
      ∃ args, (some [("a".data, .jnum 1)] : Option (List (List Char × JValue))) = some args ∧
        args.any (fun p => p.1 == k) = true :=
  ⟨(c10_empty_data_key_is_absent.1 _ _).1,
   c10_empty_data_key_is_absent.2 (.jstr "f".data) (some "a".data)
     (some [("a".data, .jnum 1)]) (conflictMsg "a".data) rfl⟩

/-- C5 (counterexample): `extractContent` decides tabularity by the FIRST
element only.  `[{a:"x"}, 5]` is not an array of plain objects, yet csv
conversion proceeds without any warning (the number row renders as empty
cells), instead of the claimed pretty-JSON fallback with a warning. -/
theorem c5_counterexample_first_element_only :
    extractActualContent (.jarr [.jobj [("a".data, .jstr "x".data)], .jnum 5]) =
      .jarr [.jobj [("a".data, .jstr "x".data)], .jnum 5] ∧
    extractContent (.jarr [.jobj [("a".data, .jstr "x".data)], .jnum 5]) "csv".data =
      ("a\nx\n".data, []) ∧
    ("a\nx\n".data, ([] : List (List Char))) ≠
      (prettyJson 0 (.jarr [.jobj [("a".data, .jstr "x".data)], .jnum 5]), [csvWarning]) :=
  ⟨rfl, rfl, by decide⟩

/-- C5 (amended): whenever the extracted value is not a non-empty array
whose FIRST element is a plain object, requesting csv or tsv raises no
error: the result is the pretty-printed JSON of the extracted value together
with the logged fallback warning. -/
theorem c5_nontabular_fallback (response : JValue)
    (h : ∀ f0 rest, extractActualContent response ≠ .jarr (.jobj f0 :: rest)) :
    extractContent response "csv".data =
      (prettyJson 0 (extractActualContent response), [csvWarning]) ∧
    extractContent response "tsv".data =
      (prettyJson 0 (extractActualContent response), [tsvWarning]) := by
  constructor
  · rw [show extractContent response "csv".data =
        (match extractActualContent response with
         | .jarr (.jobj f0 :: rest) => (convertArrayToCSV (.jobj f0 :: rest), [])
         | v => (prettyJson 0 v, [csvWarning])) from rfl]
    cases hv : extractActualContent response with
    | jarr xs =>
      match xs with
      | [] => rfl
      | .jnull :: rest => rfl
      | .jbool b :: rest => rfl
      | .jnum n :: rest => rfl
      | .jstr s :: rest => rfl
      | .jarr ys :: rest => rfl
      | .jobj f0 :: rest => exact absurd hv (h f0 rest)
    | jnull => rfl
    | jbool b => rfl
    | jnum n => rfl
    | jstr s => rfl
    | jobj fs => rfl
  · rw [show extractContent response "tsv".data =
        (match extractActualContent response with
         | .jarr (.jobj f0 :: rest) => (convertArrayToTSV (.jobj f0 :: rest), [])
         | v => (prettyJson 0 v, [tsvWarning])) from rfl]
    cases hv : extractActualContent response with
    | jarr xs =>
      match xs with
      | [] => rfl
      | .jnull :: rest => rfl
      | .jbool b :: rest => rfl
      | .jnum n :: rest => rfl
      | .jstr s :: rest => rfl
      | .jarr ys :: rest => rfl
      | .jobj f0 :: rest => exact absurd hv (h f0 rest)
    | jnull => rfl
    | jbool b => rfl
    | jnum n => rfl
    | jstr s => rfl
    | jobj fs => rfl

/-- C5 witness: the fallback at a concrete non-tabular value (a plain
string). -/
theorem c5_nontabular_fallback_witness :
    extractContent (.jstr "hi".data) "csv".data =
      (prettyJson 0 (extractActualContent (.jstr "hi".data)), [csvWarning]) ∧
    extractContent (.jstr "hi".data) "tsv".data =
      (prettyJson 0 (extractActualContent (.jstr "hi".data)), [tsvWarning]) :=
  c5_nontabular_fallback (.jstr "hi".data) (fun _ _ h => JValue.noConfusion h)

/-- C7: unwrapping the response envelope.  A `content` array with exactly
one `text`-typed item yields `JSON.parse` of its text when that parses and
the raw text otherwise; a `content` array with more than one item is
returned unchanged; an input without a `content` array is returned
unchanged. -/
theorem c7_extract_actual_content :
    (∀ (response item : JValue) (t : List Char),
      jGet response "content".data = some (.jarr [item]) →
      jGet item "type".data = some (.jstr "text".data) →
      jGet item "text".data = some (.jstr t) →
      extractActualContent response = (jsonParse t).getD (.jstr t)) ∧
    (∀ (response : JValue) (xs : List JValue),
      jGet response "content".data = some (.jarr xs) → 1 < xs.length →
      extractActualContent response = .jarr xs) ∧
    (∀ response : JValue,
      (∀ xs, jGet response "content".data ≠ some (.jarr xs)) →
      extractActualContent response = response) := by
  refine ⟨?_, ?_, ?_⟩
  · intro response item t h1 h2 h3
    simp only [extractActualContent, h1, h2, h3, if_true]
  · intro response xs h1 hlen
    simp only [extractActualContent, h1]
    rcases xs with _ | ⟨x, _ | ⟨y, rest⟩⟩
    · simp at hlen
    · simp at hlen
    · rfl
  · intro response h
    rcases hc : jGet response "content".data with _ | (_ | b | n | s | xs | fs)
    · simp only [extractActualContent, hc]
    · simp only [extractActualContent, hc]
    · simp only [extractActualContent, hc]
    · simp only [extractActualContent, hc]
    · simp only [extractActualContent, hc]
    · exact absurd hc (h xs)
    · simp only [extractActualContent, hc]

/-- C7 witness: the spec's three examples — a JSON text item parses to the
object, a non-JSON text item stays a raw string, and a two-item content
array is returned unchanged. -/
theorem c7_extract_actual_content_witness :
    extractActualContent (.jobj [("content".data, .jarr [.jobj
        [("type".data, .jstr "text".data), ("text".data, .jstr "\x7b\"a\":1\x7d".data)]])]) =
      .jobj [("a".data, .jnum 1)] ∧
    extractActualContent (.jobj [("content".data, .jarr [.jobj
        [("type".data, .jstr "text".data), ("text".data, .jstr "plain".data)]])]) =
      .jstr "plain".data ∧
    extractActualContent (.jobj [("content".data, .jarr [.jnum 1, .jnum 2])]) =
      .jarr [.jnum 1, .jnum 2] := by
  refine ⟨?_, ?_, ?_⟩
  · rw [c7_extract_actual_content.1 (.jobj [("content".data, .jarr [.jobj
        [("type".data, .jstr "text".data), ("text".data, .jstr "\x7b\"a\":1\x7d".data)]])])
      (.jobj [("type".data, .jstr "text".data), ("text".data, .jstr "\x7b\"a\":1\x7d".data)])
      "\x7b\"a\":1\x7d".data rfl rfl rfl]
    rfl
  · rw [c7_extract_actual_content.1 (.jobj [("content".data, .jarr [.jobj
        [("type".data, .jstr "text".data), ("text".data, .jstr "plain".data)]])])
      (.jobj [("type".data, .jstr "text".data), ("text".data, .jstr "plain".data)])
      "plain".data rfl rfl rfl]
    rfl
  · exact c7_extract_actual_content.2.1 _ [.jnum 1, .jnum 2] rfl (by decide)

/-! ### Helper lemmas on record building and the CSV record loop -/

/-- Setting a key that is not yet present appends the binding. -/
theorem jsSetField_append (m : List (List Char × JValue)) (k : List Char) (v : JValue)
    (h : ∀ q ∈ m, q.1 ≠ k) : jsSetField m k v = m ++ [(k, v)] := by
  unfold jsSetField
  rw [if_neg]
  rw [List.any_eq_true]
  rintro ⟨q, hq, hqk⟩
  exact h q hq (by simpa using hqk)

/-- Folding fresh, pairwise-distinct keys into an accumulator appends them
in order. -/
theorem foldl_jsSetField_of_fresh (hs vs : List (List Char))
    (acc : List (List Char × JValue)) (hnd : hs.Nodup)
    (hfr : ∀ k ∈ hs, ∀ q ∈ acc, q.1 ≠ k) :
    (hs.zip vs).foldl (fun m kv => jsSetField m kv.1 (.jstr kv.2)) acc =
      acc ++ (hs.zip vs).map (fun kv => (kv.1, JValue.jstr kv.2)) := by
  induction hs generalizing vs acc with
  | nil => simp
  | cons h hs ih =>
    cases vs with
    | nil => simp
    | cons v vs =>
      rw [List.zip_cons_cons, List.foldl_cons,
        jsSetField_append _ _ _ (hfr h (by simp))]
      have hfr2 : ∀ k ∈ hs, ∀ q ∈ acc ++ [(h, JValue.jstr v)], q.1 ≠ k := by
        intro k hk q hq
        rcases List.mem_append.mp hq with hq | hq
        · exact hfr k (List.mem_cons_of_mem _ hk) q hq
        · have hq2 : q = (h, JValue.jstr v) := List.mem_singleton.mp hq
          subst hq2
          intro hkh
          apply (List.nodup_cons.mp hnd).1
          have hk2 : h = k := hkh
          exact hk2 ▸ hk
      rw [ih vs (acc ++ [(h, JValue.jstr v)]) (List.nodup_cons.mp hnd).2 hfr2]
      simp

/-- With distinct headers, the record built by the parser is the zip of
headers and values. -/
theorem mkRowFields_eq_zip (hs vs : List (List Char)) (hnd : hs.Nodup) :
    mkRowFields hs vs = (hs.zip vs).map (fun kv => (kv.1, JValue.jstr kv.2)) := by
  unfold mkRowFields
  rw [foldl_jsSetField_of_fresh hs vs [] hnd (by simp)]
  simp

/-- With distinct headers and matching value count, the parsed record is
keyed exactly by the header fields. -/
theorem jKeys_mkRowFields (hs vs : List (List Char)) (hnd : hs.Nodup)
    (hlen : hs.length = vs.length) :
    jKeys (.jobj (mkRowFields hs vs)) = hs := by
  rw [show jKeys (.jobj (mkRowFields hs vs)) = (mkRowFields hs vs).map (·.1) from rfl]
  rw [mkRowFields_eq_zip hs vs hnd, List.map_map]
  rw [show ((fun p => p.1) ∘ fun kv => (kv.1, JValue.jstr kv.2) :
        List Char × List Char → List Char) = Prod.fst from rfl]
  exact List.map_fst_zip _ _ (le_of_eq hlen)

/-- The record loop errors at the first record whose field count differs
from the header count, naming row `index + 2`. -/
theorem parseCSVRecords_error (headers : List (List Char)) (pre : List (List Char))
    (bad : List Char) (post : List (List Char)) (idx : Nat)
    (hpre : ∀ r ∈ pre, (parseCSVRow r).length = headers.length)
    (hbad : (parseCSVRow bad).length ≠ headers.length) :
    parseCSVRecords headers idx (pre ++ bad :: post) =
      .error (rowCountMsg (idx + pre.length + 2) (parseCSVRow bad).length
        headers.length) := by
  induction pre generalizing idx with
  | nil =>
    simp only [List.nil_append, parseCSVRecords, if_pos hbad, List.length_nil]
  | cons r pre ih =>
    rw [List.cons_append]
    show parseCSVRecords headers idx (r :: (pre ++ bad :: post)) = _
    rw [show parseCSVRecords headers idx (r :: (pre ++ bad :: post)) =
        (if (parseCSVRow r).length ≠ headers.length then
          .error (rowCountMsg (idx + 2) (parseCSVRow r).length headers.length)
        else
          match parseCSVRecords headers (idx + 1) (pre ++ bad :: post) with
          | .error e => .error e
          | .ok rs => .ok (.jobj (mkRowFields headers (parseCSVRow r)) :: rs))
      from rfl]
    rw [if_neg (by simpa using hpre r (by simp))]
    rw [ih (idx + 1) (fun x hx => hpre x (List.mem_cons_of_mem _ hx))]
    have harith : idx + 1 + pre.length + 2 = idx + (r :: pre).length + 2 := by
      simp
      omega
    rw [harith]


/-- When every record matches the header count, the record loop returns one
object per data row. -/
theorem parseCSVRecords_ok (headers : List (List Char)) (rows : List (List Char))
    (idx : Nat) (hall : ∀ r ∈ rows, (parseCSVRow r).length = headers.length) :
    parseCSVRecords headers idx rows =
      .ok (rows.map (fun r => .jobj (mkRowFields headers (parseCSVRow r)))) := by
  induction rows generalizing idx with
  | nil => rfl
  | cons r rows ih =>
    rw [show parseCSVRecords headers idx (r :: rows) =
        (if (parseCSVRow r).length ≠ headers.length then
          .error (rowCountMsg (idx + 2) (parseCSVRow r).length headers.length)
        else
          match parseCSVRecords headers (idx + 1) rows with
          | .error e => .error e
          | .ok rs => .ok (.jobj (mkRowFields headers (parseCSVRow r)) :: rs))
      from rfl]
    rw [if_neg (by simpa using hall r (by simp))]
    rw [ih (idx + 1) (fun x hx => hall x (List.mem_cons_of_mem _ hx))]
    simp

/-- C9: the CSV parser's error behaviour.  Content with no non-blank line
fails with the file-is-empty error; content whose cleaned lines are a lone
header fails with the no-data-rows error; the first data record whose field
count differs from the header's fails with an error naming its 1-based row
number (the header is row 1, so the record after `pre` matching records is
row `pre.length + 2`); otherwise parsing succeeds with one object per data
row, keyed by the header fields. -/
theorem c9_csv_parse_errors :
    (∀ content : List Char,
      (∀ l ∈ splitOnChar '\n' content, trimChars l = []) →
      parseCSVContent content = .error "CSV file is empty".data) ∧
    (∀ (content h : List Char),
      cleanLines content = [h] →
      parseCSVContent content =
        .error "CSV file contains only headers, no data rows".data) ∧
    (∀ (content l0 bad : List Char) (pre post : List (List Char)),
      cleanLines content = l0 :: (pre ++ bad :: post) →
      (∀ r ∈ pre, (parseCSVRow r).length = (parseCSVRow l0).length) →
      (parseCSVRow bad).length ≠ (parseCSVRow l0).length →
      parseCSVContent content =
        .error (rowCountMsg (pre.length + 2) (parseCSVRow bad).length
          (parseCSVRow l0).length)) ∧
    (∀ (content l0 : List Char) (rows : List (List Char)),
      cleanLines content = l0 :: rows → rows ≠ [] →
      (∀ r ∈ rows, (parseCSVRow r).length = (parseCSVRow l0).length) →
      ∃ objs, parseCSVContent content = .ok objs ∧ objs.length = rows.length ∧
        ((parseCSVRow l0).Nodup → ∀ o ∈ objs, jKeys o = parseCSVRow l0)) := by
  refine ⟨?_, ?_, ?_, ?_⟩
  · intro content hall
    have hclean : cleanLines content = [] := by
      unfold cleanLines
      rw [List.filter_eq_nil_iff]
      intro a ha
      rw [List.mem_map] at ha
      obtain ⟨l, hl, rfl⟩ := ha
      simp [hall l hl]
    rw [show parseCSVContent content = (match cleanLines content with
        | [] => Except.error "CSV file is empty".data
        | [_] => Except.error "CSV file contains only headers, no data rows".data
        | l0 :: rest => parseCSVRecords (parseCSVRow l0) 0 rest) from rfl, hclean]
  · intro content h hline
    rw [show parseCSVContent content = (match cleanLines content with
        | [] => Except.error "CSV file is empty".data
        | [_] => Except.error "CSV file contains only headers, no data rows".data
        | l0 :: rest => parseCSVRecords (parseCSVRow l0) 0 rest) from rfl, hline]
  · intro content l0 bad pre post hline hpre hbad
    have key : parseCSVContent content =
        parseCSVRecords (parseCSVRow l0) 0 (pre ++ bad :: post) := by
      rw [show parseCSVContent content = (match cleanLines content with
          | [] => Except.error "CSV file is empty".data
          | [_] => Except.error "CSV file contains only headers, no data rows".data
          | l0 :: rest => parseCSVRecords (parseCSVRow l0) 0 rest) from rfl, hline]
      cases pre with
      | nil => rfl
      | cons p pre2 => rfl
    rw [key, parseCSVRecords_error (parseCSVRow l0) pre bad post 0 hpre hbad]
    have harith : 0 + pre.length + 2 = pre.length + 2 := by omega
    rw [harith]
  · intro content l0 rows hline hne hall
    have key : parseCSVContent content = parseCSVRecords (parseCSVRow l0) 0 rows := by
      rw [show parseCSVContent content = (match cleanLines content with
          | [] => Except.error "CSV file is empty".data
          | [_] => Except.error "CSV file contains only headers, no data rows".data
          | l0 :: rest => parseCSVRecords (parseCSVRow l0) 0 rest) from rfl, hline]
      cases rows with
      | nil => exact absurd rfl hne
      | cons r rows2 => rfl
    refine ⟨rows.map (fun r => .jobj (mkRowFields (parseCSVRow l0) (parseCSVRow r))),
      ?_, by simp, ?_⟩
    · rw [key, parseCSVRecords_ok (parseCSVRow l0) rows 0 hall]
    · intro hnd o ho
      rw [List.mem_map] at ho
      obtain ⟨r, hr, rfl⟩ := ho
      exact jKeys_mkRowFields _ _ hnd (hall r hr).symm

/-- C9 witness: the four behaviours at concrete contents — whitespace-only
content, a lone header line, a short second record (row 2), and a successful
one-row parse. -/
theorem c9_csv_parse_errors_witness :
    parseCSVContent "  \n ".data = .error "CSV file is empty".data ∧
    parseCSVContent "a,b".data =
      .error "CSV file contains only headers, no data rows".data ∧
    parseCSVContent "a,b\nx\ny,z".data = .error (rowCountMsg 2 1 2) ∧
    ∃ objs, parseCSVContent "a\nx".data = .ok objs ∧ objs.length = 1 ∧
      ((parseCSVRow "a".data).Nodup → ∀ o ∈ objs, jKeys o = parseCSVRow "a".data) := by
  refine ⟨?_, ?_, ?_, ?_⟩
  · exact c9_csv_parse_errors.1 _ (by decide)
  · exact c9_csv_parse_errors.2.1 _ "a,b".data rfl
  · rw [c9_csv_parse_errors.2.2.1 "a,b\nx\ny,z".data "a,b".data "x".data []
      ["y,z".data] rfl (by simp) (by decide)]
    rfl
  · exact c9_csv_parse_errors.2.2.2 "a\nx".data "a".data ["x".data] rfl
      (by simp) (by decide)

/-! ### Path-resolution lemmas for the Directory Guard claim -/

/-- `splitOnChar` never returns the empty list. -/
theorem splitOnChar_ne_nil (sep : Char) (l : List Char) : splitOnChar sep l ≠ [] := by
  cases l with
  | nil => simp [splitOnChar]
  | cons c rest =>
    unfold splitOnChar
    cases splitOnChar sep rest with
    | nil => simp
    | cons h t =>
      by_cases hc : c = sep <;> simp [hc]

/-- Pieces produced by `splitOnChar` do not contain the separator. -/
theorem not_mem_of_mem_splitOnChar (sep : Char) :
    ∀ (l piece : List Char), piece ∈ splitOnChar sep l → sep ∉ piece := by
  intro l
  induction l with
  | nil =>
    intro piece hp
    rw [show splitOnChar sep [] = [[]] from rfl] at hp
    rcases List.mem_singleton.mp hp with rfl
    simp
  | cons c rest ih =>
    intro piece hp
    rcases hsp : splitOnChar sep rest with _ | ⟨h, t⟩
    · exact absurd hsp (splitOnChar_ne_nil sep rest)
    · have hunfold : splitOnChar sep (c :: rest) =
          if c = sep then [] :: h :: t else (c :: h) :: t := by
        rw [show splitOnChar sep (c :: rest) =
          (match splitOnChar sep rest with
           | [] => [[]]
           | h :: t => if c = sep then [] :: h :: t else (c :: h) :: t) from rfl, hsp]
      rw [hunfold] at hp
      by_cases hc : c = sep
      · rw [if_pos hc] at hp
        rcases List.mem_cons.mp hp with rfl | hp
        · simp
        · exact ih piece (hsp ▸ hp)
      · rw [if_neg hc] at hp
        rcases List.mem_cons.mp hp with rfl | hp
        · intro hmem
          rcases List.mem_cons.mp hmem with rfl | hmem
          · exact hc rfl
          · exact ih h (hsp ▸ List.mem_cons_self h t) hmem
        · exact ih piece (hsp ▸ List.mem_cons_of_mem h hp)

/-- Normalization preserves well-formed components (non-empty, slash-free). -/
theorem goodComps_foldl_normStep :
    ∀ (pieces : List Comp) (acc : List Comp),
      (∀ c ∈ acc, c ≠ [] ∧ '/' ∉ c) → (∀ piece ∈ pieces, '/' ∉ piece) →
      ∀ c ∈ pieces.foldl normStep acc, c ≠ [] ∧ '/' ∉ c := by
  intro pieces
  induction pieces with
  | nil =>
    intro acc hacc _
    exact hacc
  | cons piece pieces ih =>
    intro acc hacc hpieces
    rw [List.foldl_cons]
    apply ih
    · unfold normStep
      by_cases h1 : piece = [] ∨ piece = ['.']
      · rw [if_pos h1]; exact hacc
      · rw [if_neg h1]
        by_cases h2 : piece = ['.', '.']
        · rw [if_pos h2]
          intro c hc
          exact hacc c (List.mem_of_mem_dropLast hc)
        · rw [if_neg h2]
          intro c hc
          rcases List.mem_append.mp hc with hc | hc
          · exact hacc c hc
          · rcases List.mem_singleton.mp hc with rfl
            exact ⟨fun he => h1 (Or.inl he), hpieces c (List.mem_cons_self _ _)⟩
    · exact fun q hq => hpieces q (List.mem_cons_of_mem _ hq)

/-- Resolution always yields well-formed components when the working
directory is well-formed. -/
theorem goodComps_resolvePath (cwd : List Comp)
    (hcwd : ∀ c ∈ cwd, c ≠ [] ∧ '/' ∉ c) (p : List Char) :
    ∀ c ∈ resolvePath cwd p, c ≠ [] ∧ '/' ∉ c := by
  unfold resolvePath
  apply goodComps_foldl_normStep
  · by_cases h : p.head? = some '/'
    · simp [h]
    · simp [h]
      exact hcwd
  · exact fun piece hp => not_mem_of_mem_splitOnChar '/' p piece hp

/-- Two slash-led (or empty) tails after slash-free tokens: equality of the
concatenations forces equality of the parts. -/
theorem slash_append_eq :
    ∀ (a c X Y : List Char), '/' ∉ a → '/' ∉ c →
      (X = [] ∨ X.head? = some '/') → (Y = [] ∨ Y.head? = some '/') →
      a ++ X = c ++ Y → a = c ∧ X = Y := by
  intro a
  induction a with
  | nil =>
    intro c X Y _ hc hX _ h
    cases c with
    | nil => exact ⟨rfl, h⟩
    | cons f c2 =>
      exfalso
      rcases hX with rfl | hX
      · exact List.cons_ne_nil f (c2 ++ Y) (by simpa using h.symm)
      · rw [List.nil_append] at h
        subst h
        simp at hX
        exact hc (by simp [hX])
  | cons e a2 ih =>
    intro c X Y ha hc hX hY h
    cases c with
    | nil =>
      exfalso
      rw [List.nil_append] at h
      rcases hY with rfl | hY
      · exact List.cons_ne_nil e (a2 ++ X) (by simp at h)
      · rw [← h] at hY
        simp at hY
        exact ha (by simp [hY])
    | cons f c2 =>
      rw [List.cons_append, List.cons_append] at h
      obtain ⟨rfl, h2⟩ := List.cons.inj h
      obtain ⟨h3, h4⟩ := ih c2 X Y (fun hm => ha (List.mem_cons_of_mem _ hm))
        (fun hm => hc (List.mem_cons_of_mem _ hm)) hX hY h2
      exact ⟨by rw [h3], h4⟩

/-- Prefix version of the token argument: with slash-free tokens and
slash-led suffixes, the prefix relation splits into token equality plus
suffix prefix. -/
theorem slash_append_pref :
    ∀ (a c X Y : List Char), '/' ∉ a → '/' ∉ c →
      X.head? = some '/' → (Y = [] ∨ Y.head? = some '/') →
      ((a ++ X <+: c ++ Y) ↔ (a = c ∧ X <+: Y)) := by
  intro a
  induction a with
  | nil =>
    intro c X Y _ hc hX hY
    cases c with
    | nil => simp
    | cons f c2 =>
      simp only [List.nil_append, List.cons_append]
      constructor
      · intro h
        exfalso
        cases X with
        | nil => simp at hX
        | cons x X2 =>
          obtain ⟨rfl, -⟩ := List.cons_prefix_cons.mp h
          simp at hX
          exact hc (by simp [hX])
      · rintro ⟨h, -⟩
        exact absurd h (List.cons_ne_nil f c2).symm
  | cons e a2 ih =>
    intro c X Y ha hc hX hY
    cases c with
    | nil =>
      simp only [List.cons_append, List.nil_append]
      constructor
      · intro h
        exfalso
        rcases hY with rfl | hY
        · rw [List.prefix_nil] at h
          exact List.cons_ne_nil e (a2 ++ X) h
        · cases Y with
          | nil => simp at hY
          | cons y Y2 =>
            obtain ⟨rfl, -⟩ := List.cons_prefix_cons.mp h
            simp at hY
            exact ha (by simp [hY])
      · rintro ⟨h, -⟩
        exact absurd h (List.cons_ne_nil e a2)
    | cons f c2 =>
      rw [List.cons_append, List.cons_append, List.cons_prefix_cons,
        ih c2 X Y (fun hm => ha (List.mem_cons_of_mem _ hm))
          (fun hm => hc (List.mem_cons_of_mem _ hm)) hX hY]
      constructor
      · rintro ⟨rfl, rfl, h⟩
        exact ⟨rfl, h⟩
      · rintro ⟨h, h2⟩
        obtain ⟨rfl, rfl⟩ := List.cons.inj h
        exact ⟨rfl, rfl, h2⟩

/-- The rendered tail of any component list is empty or starts with a
slash. -/
theorem tailPath_head (cs : List Comp) :
    tailPath cs = [] ∨ (tailPath cs).head? = some '/' := by
  cases cs with
  | nil => exact Or.inl rfl
  | cons c cs => exact Or.inr rfl

/-- The rendered tail with a trailing slash always starts with a slash. -/
theorem tailPath_slash_head (cs : List Comp) :
    (tailPath cs ++ ['/']).head? = some '/' := by
  cases cs with
  | nil => rfl
  | cons c cs => rfl

/-- `tailPath` is injective on well-formed component lists. -/
theorem tailPath_inj :
    ∀ (d p : List Comp), (∀ c ∈ d, c ≠ [] ∧ '/' ∉ c) →
      (∀ c ∈ p, c ≠ [] ∧ '/' ∉ c) → tailPath d = tailPath p → d = p := by
  intro d
  induction d with
  | nil =>
    intro p _ hp h
    cases p with
    | nil => rfl
    | cons c cs => exact absurd h.symm (by simp [tailPath])
  | cons a ds ih =>
    intro p hd hp h
    cases p with
    | nil => exact absurd h (by simp [tailPath])
    | cons c cs =>
      rw [show tailPath (a :: ds) = '/' :: (a ++ tailPath ds) from rfl,
        show tailPath (c :: cs) = '/' :: (c ++ tailPath cs) from rfl] at h
      obtain ⟨-, h2⟩ := List.cons.inj h
      obtain ⟨h3, h4⟩ := slash_append_eq a c (tailPath ds) (tailPath cs)
        (hd a (List.mem_cons_self _ _)).2 (hp c (List.mem_cons_self _ _)).2
        (tailPath_head ds) (tailPath_head cs) h2
      rw [h3, ih cs (fun q hq => hd q (List.mem_cons_of_mem _ hq))
        (fun q hq => hp q (List.mem_cons_of_mem _ hq)) h4]

/-- The separator-boundary prefix test on rendered tails is exactly the
strict-prefix relation on component lists. -/
theorem tailPath_slash_pref :
    ∀ (d p : List Comp), (∀ c ∈ d, c ≠ [] ∧ '/' ∉ c) →
      (∀ c ∈ p, c ≠ [] ∧ '/' ∉ c) →
      ((tailPath d ++ ['/'] <+: tailPath p) ↔ (d <+: p ∧ d ≠ p)) := by
  intro d
  induction d with
  | nil =>
    intro p _ hp
    cases p with
    | nil => simp [tailPath]
    | cons c cs =>
      rw [show tailPath ([] : List Comp) = [] from rfl, List.nil_append,
        show tailPath (c :: cs) = '/' :: (c ++ tailPath cs) from rfl]
      constructor
      · intro _
        exact ⟨List.nil_prefix, by simp⟩
      · intro _
        rw [show (['/'] : List Char) = '/' :: [] from rfl, List.cons_prefix_cons]
        exact ⟨rfl, List.nil_prefix⟩
  | cons a ds ih =>
    intro p hd hp
    cases p with
    | nil =>
      rw [show tailPath (a :: ds) = '/' :: (a ++ tailPath ds) from rfl,
        show tailPath ([] : List Comp) = [] from rfl, List.cons_append,
        List.prefix_nil]
      simp
    | cons c cs =>
      rw [show tailPath (a :: ds) = '/' :: (a ++ tailPath ds) from rfl,
        show tailPath (c :: cs) = '/' :: (c ++ tailPath cs) from rfl,
        List.cons_append, List.cons_prefix_cons, List.append_assoc,
        slash_append_pref a c (tailPath ds ++ ['/']) (tailPath cs)
          (hd a (List.mem_cons_self _ _)).2 (hp c (List.mem_cons_self _ _)).2
          (tailPath_slash_head ds) (tailPath_head cs),
        ih cs (fun q hq => hd q (List.mem_cons_of_mem _ hq))
          (fun q hq => hp q (List.mem_cons_of_mem _ hq))]
      constructor
      · rintro ⟨-, rfl, h1, h2⟩
        exact ⟨List.cons_prefix_cons.mpr ⟨rfl, h1⟩,
          fun hEq => h2 (List.cons.inj hEq).2⟩
      · rintro ⟨hpre, hne⟩
        obtain ⟨rfl, h1⟩ := List.cons_prefix_cons.mp hpre
        exact ⟨rfl, rfl, h1, fun hEq => hne (by rw [hEq])⟩

/-- One allow-list entry's test inside `validatePath` — separator-boundary
prefix or string equality of the rendered resolved paths — holds exactly
when the entry's components equal the candidate's or are a strict prefix of
them with the entry not being the filesystem root. -/
theorem validate_clause_iff (d p : List Comp)
    (hd : ∀ c ∈ d, c ≠ [] ∧ '/' ∉ c) (hp : ∀ c ∈ p, c ≠ [] ∧ '/' ∉ c) :
    (((renderPath d ++ ['/']).isPrefixOf (renderPath p) ||
        renderPath p == renderPath d) = true) ↔
      (d = p ∨ (d ≠ [] ∧ d <+: p ∧ d ≠ p)) := by
  rw [Bool.or_eq_true, List.isPrefixOf_iff_prefix, beq_iff_eq]
  cases d with
  | nil =>
    cases p with
    | nil => simp [renderPath]
    | cons c cs =>
      rw [show renderPath ([] : List Comp) = ['/'] from rfl,
        show renderPath (c :: cs) = '/' :: (c ++ tailPath cs) from rfl]
      refine iff_of_false ?_ (by rintro (h | ⟨h, -⟩) <;> simp at h)
      rintro (h | h)
      · rw [show ((['/'] : List Char) ++ ['/']) = '/' :: ['/'] from rfl,
          List.cons_prefix_cons] at h
        obtain ⟨-, h2⟩ := h
        obtain ⟨hc1, hc2⟩ := hp c (List.mem_cons_self _ _)
        cases c with
        | nil => exact hc1 rfl
        | cons e c2 =>
          rw [List.cons_append, List.cons_prefix_cons] at h2
          exact hc2 (h2.1 ▸ List.mem_cons_self e c2)
      · obtain ⟨-, h2⟩ := List.cons.inj h
        obtain ⟨hc1, -⟩ := hp c (List.mem_cons_self _ _)
        exact hc1 (List.append_eq_nil.mp h2).1
  | cons a ds =>
    cases p with
    | nil =>
      rw [show renderPath (a :: ds) = '/' :: (a ++ tailPath ds) from rfl,
        show renderPath ([] : List Comp) = ['/'] from rfl]
      refine iff_of_false ?_ ?_
      · rintro (h | h)
        · rw [List.cons_append, List.cons_prefix_cons] at h
          obtain ⟨-, h2⟩ := h
          rw [List.prefix_nil] at h2
          simp at h2
        · obtain ⟨-, h2⟩ := List.cons.inj h
          obtain ⟨ha1, -⟩ := hd a (List.mem_cons_self _ _)
          exact ha1 (List.append_eq_nil.mp h2.symm).1
      · rintro (h | ⟨-, h, -⟩)
        · simp at h
        · rw [List.prefix_nil] at h
          simp at h
    | cons c cs =>
      rw [show renderPath (a :: ds) = tailPath (a :: ds) from rfl,
        show renderPath (c :: cs) = tailPath (c :: cs) from rfl]
      constructor
      · rintro (h | h)
        · have h2 := (tailPath_slash_pref (a :: ds) (c :: cs) hd hp).mp h
          exact Or.inr ⟨by simp, h2.1, h2.2⟩
        · exact Or.inl (tailPath_inj (c :: cs) (a :: ds) hp hd h).symm
      · rintro (heq | ⟨-, h1, h2⟩)
        · exact Or.inr (by rw [heq])
        · exact Or.inl ((tailPath_slash_pref (a :: ds) (c :: cs) hd hp).mpr ⟨h1, h2⟩)

/-- C2 (amended): with a well-formed working directory, `validatePath`
rejects `null`; the empty string resolves to the working directory itself
(so it is accepted exactly when the working directory lies within the
allow-list, not "always rejected"); and for every path the result is true
iff the resolved path equals some entry's resolved form or is a strict
descendant (component-wise strict prefix) of a non-root entry. -/
theorem c2_validate_path_characterization (cwd : List Comp)
    (hcwd : ∀ c ∈ cwd, c ≠ [] ∧ '/' ∉ c) :
    (∀ dirs, validatePath cwd none dirs = false) ∧
    resolvePath cwd [] = cwd ∧
    (∀ (p : List Char) (dirs : List (List Char)),
      validatePath cwd (some p) dirs = true ↔
      ∃ dir ∈ dirs,
        resolvePath cwd dir = resolvePath cwd p ∨
        (resolvePath cwd dir ≠ [] ∧ resolvePath cwd dir <+: resolvePath cwd p ∧
          resolvePath cwd dir ≠ resolvePath cwd p)) := by
  refine ⟨fun _ => rfl, rfl, ?_⟩
  intro p dirs
  rw [show validatePath cwd (some p) dirs =
      dirs.any (fun dir =>
        ((renderPath (resolvePath cwd dir) ++ ['/']).isPrefixOf
          (renderPath (resolvePath cwd p)) ||
          renderPath (resolvePath cwd p) == renderPath (resolvePath cwd dir)))
    from rfl]
  rw [List.any_eq_true]
  exact exists_congr fun dir => and_congr_right fun _ =>
    validate_clause_iff (resolvePath cwd dir) (resolvePath cwd p)
      (goodComps_resolvePath cwd hcwd dir) (goodComps_resolvePath cwd hcwd p)

/-- C2 witness: the characterization applied with working directory `/a` to
accept `/a/b` against the allow-list `["/a"]` (a strict descendant of a
non-root entry). -/
theorem c2_validate_path_characterization_witness :
    validatePath [['a']] (some "/a/b".data) ["/a".data] = true :=
  ((c2_validate_path_characterization [['a']] (by decide)).2.2 "/a/b".data
      ["/a".data]).mpr
    ⟨"/a".data, by simp, Or.inr ⟨by decide, by decide, by decide⟩⟩

/-- C2 (counterexample): the claim fails in two places.  With working
directory `/a/b`, the empty path resolves to the working directory, which
lies inside the allowed directory `/a`, so the empty input is accepted —
not "always rejected regardless of the current working directory".  And
with the root `/` as the (only) allowed directory, `/a` — a strict
descendant of `/` — is rejected, because `resolved.startsWith("/" + "/")`
never holds. -/
theorem c2_counterexample :
    validatePath [['a'], ['b']] (some []) ["/a".data] = true ∧
    validatePath [] (some "/a".data) ["/".data] = false ∧
    resolvePath [] "/".data = [] ∧
    resolvePath [] "/a".data = [['a']] ∧
    ([] : List Comp) <+: [['a']] ∧ ([] : List Comp) ≠ [['a']] :=
  ⟨rfl, rfl, rfl, rfl, by decide, by decide⟩

/-! ### Scanner lemmas for the CSV round trip -/

/-- A comma outside quotes closes the current field. -/
theorem parseCSVRowAux_comma (cur tail : List Char) :
    parseCSVRowAux cur false (',' :: tail) = cur :: parseCSVRowAux [] false tail := by
  cases tail with
  | nil => rfl
  | cons d rest => rfl

/-- Scanning a comma-free, quote-free field outside quotes accumulates it. -/
theorem parseCSVRowAux_unquoted :
    ∀ (f l cur : List Char), ',' ∉ f → '"' ∉ f →
      parseCSVRowAux cur false (f ++ l) = parseCSVRowAux (cur ++ f) false l := by
  intro f
  induction f with
  | nil =>
    intro l cur _ _
    simp
  | cons c f2 ih =>
    intro l cur hc hq
    have hcq : ¬(c = '"') := fun h => hq (by rw [h]; exact List.mem_cons_self _ _)
    have hcc : ¬(c = ',') := fun h => hc (by rw [h]; exact List.mem_cons_self _ _)
    rw [List.cons_append]
    cases hfl : f2 ++ l with
    | nil =>
      obtain ⟨rfl, rfl⟩ := List.append_eq_nil.mp hfl
      rw [show parseCSVRowAux cur false [c] =
          (if c = '"' then [cur]
           else if c = ',' && !false then [cur, []]
           else [cur ++ [c]]) from rfl]
      rw [if_neg hcq, if_neg (by simp [hcc])]
      rfl
    | cons d rest =>
      rw [show parseCSVRowAux cur false (c :: d :: rest) =
          (if c = '"' then
            (if false && d = '"' then parseCSVRowAux (cur ++ ['"']) false rest
             else parseCSVRowAux cur (!false) (d :: rest))
           else if c = ',' && !false then cur :: parseCSVRowAux [] false (d :: rest)
           else parseCSVRowAux (cur ++ [c]) false (d :: rest)) from rfl]
      rw [if_neg hcq, if_neg (by simp [hcc]), ← hfl,
        ih l (cur ++ [c]) (fun hm => hc (List.mem_cons_of_mem _ hm))
          (fun hm => hq (List.mem_cons_of_mem _ hm))]
      simp

/-- Scanning the escaped body of a quoted field (inside quotes) accumulates
the unescaped text and leaves the closing quote handled. -/
theorem parseCSVRowAux_quoted :
    ∀ (f l cur : List Char), l.head? ≠ some '"' →
      parseCSVRowAux cur true (escQuotes f ++ ('"' :: l)) =
        parseCSVRowAux (cur ++ f) false l := by
  intro f
  induction f with
  | nil =>
    intro l cur hl
    rw [show escQuotes [] = [] from rfl, List.nil_append]
    cases l with
    | nil => simp [parseCSVRowAux]
    | cons d rest =>
      have hd : ¬(d = '"') := fun h => hl (by simp [h])
      rw [show parseCSVRowAux cur true ('"' :: d :: rest) =
          (if ('"' : Char) = '"' then
            (if true && d = '"' then parseCSVRowAux (cur ++ ['"']) true rest
             else parseCSVRowAux cur (!true) (d :: rest))
           else if ('"' : Char) = ',' && !true then cur :: parseCSVRowAux [] false (d :: rest)
           else parseCSVRowAux (cur ++ ['"']) true (d :: rest)) from rfl]
      rw [if_pos rfl, if_neg (by simp [hd])]
      simp
  | cons c f2 ih =>
    intro l cur hl
    by_cases hc : c = '"'
    · subst hc
      rw [show escQuotes ('"' :: f2) = '"' :: '"' :: escQuotes f2 from rfl,
        List.cons_append, List.cons_append]
      rw [show parseCSVRowAux cur true ('"' :: '"' :: (escQuotes f2 ++ '"' :: l)) =
          (if ('"' : Char) = '"' then
            (if true && ('"' : Char) = '"' then
              parseCSVRowAux (cur ++ ['"']) true (escQuotes f2 ++ '"' :: l)
             else parseCSVRowAux cur (!true) ('"' :: (escQuotes f2 ++ '"' :: l)))
           else if ('"' : Char) = ',' && !true then
            cur :: parseCSVRowAux [] false ('"' :: (escQuotes f2 ++ '"' :: l))
           else parseCSVRowAux (cur ++ ['"']) true ('"' :: (escQuotes f2 ++ '"' :: l)))
        from rfl]
      rw [if_pos rfl, if_pos (by simp), ih l (cur ++ ['"']) hl]
      simp
    · rw [show escQuotes (c :: f2) =
          (if c = '"' then '"' :: '"' :: escQuotes f2 else c :: escQuotes f2) from rfl,
        if_neg hc, List.cons_append]
      cases hfl : escQuotes f2 ++ ('"' :: l) with
      | nil => exact absurd hfl (by simp)
      | cons d rest =>
        rw [show parseCSVRowAux cur true (c :: d :: rest) =
            (if c = '"' then
              (if true && d = '"' then parseCSVRowAux (cur ++ ['"']) true rest
               else parseCSVRowAux cur (!true) (d :: rest))
             else if c = ',' && !true then cur :: parseCSVRowAux [] false (d :: rest)
             else parseCSVRowAux (cur ++ [c]) true (d :: rest)) from rfl]
        rw [if_neg hc, if_neg (by simp), ← hfl, ih l (cur ++ [c]) hl]
        simp

/-- The opening quote of a quoted field flips the scanner into its quoted
state. -/
theorem parseCSVRowAux_open_quote (cur f l : List Char) :
    parseCSVRowAux cur false ('"' :: (escQuotes f ++ '"' :: l)) =
      parseCSVRowAux cur true (escQuotes f ++ '"' :: l) := by
  cases hfl : escQuotes f ++ ('"' :: l) with
  | nil => exact absurd hfl (by simp)
  | cons d rest =>
    rw [show parseCSVRowAux cur false ('"' :: d :: rest) =
        (if ('"' : Char) = '"' then
          (if false && d = '"' then parseCSVRowAux (cur ++ ['"']) false rest
           else parseCSVRowAux cur (!false) (d :: rest))
         else if ('"' : Char) = ',' && !false then cur :: parseCSVRowAux [] false (d :: rest)
         else parseCSVRowAux (cur ++ ['"']) false (d :: rest)) from rfl]
    rw [if_pos rfl, if_neg (by simp)]
    rfl

/-- A cell without commas or quotes is encoded verbatim. -/
theorem csvField_eq_self (s : List Char) (hc : ',' ∉ s) (hq : '"' ∉ s) :
    csvField s = s := by
  unfold csvField
  rw [if_neg]
  intro h
  rcases Bool.or_eq_true _ _ |>.mp h with h | h
  · exact hc (List.elem_iff.mp h)
  · exact hq (List.elem_iff.mp h)

/-- A quoted-encoded cell starts with the quote and appends the escaped body
and closing quote. -/
theorem csvField_quoted (s : List Char) (h : (s.contains ',' || s.contains '"') = true) :
    csvField s = '"' :: (escQuotes s ++ ['"']) := by
  unfold csvField
  rw [if_pos h]

/-- Scanning one encoded record recovers its fields. -/
theorem parseCSVRowAux_encoded :
    ∀ (fs : List (List Char)) (f cur : List Char),
      parseCSVRowAux cur false (joinSep ',' ((f :: fs).map csvField)) =
        (cur ++ f) :: fs := by
  intro fs
  induction fs with
  | nil =>
    intro f cur
    rw [show joinSep ',' ([f].map csvField) = csvField f from rfl]
    by_cases h : (f.contains ',' || f.contains '"') = true
    · rw [csvField_quoted f h,
        show ('"' :: (escQuotes f ++ ['"']) : List Char) =
          '"' :: (escQuotes f ++ '"' :: []) from rfl,
        parseCSVRowAux_open_quote cur f [],
        parseCSVRowAux_quoted f [] cur (by simp)]
      rfl
    · have hc : ',' ∉ f := fun hm => h (by simp; exact Or.inl hm)
      have hq : '"' ∉ f := fun hm => h (by simp; exact Or.inr hm)
      have key := parseCSVRowAux_unquoted f [] cur hc hq
      rw [List.append_nil] at key
      rw [csvField_eq_self f hc hq, key]
      rfl
  | cons g fs2 ih =>
    intro f cur
    rw [show joinSep ',' ((f :: g :: fs2).map csvField) =
        csvField f ++ ',' :: joinSep ',' ((g :: fs2).map csvField) from rfl]
    by_cases h : (f.contains ',' || f.contains '"') = true
    · rw [csvField_quoted f h, List.cons_append, List.append_assoc,
        show (['"'] ++ ',' :: joinSep ',' ((g :: fs2).map csvField) : List Char) =
          '"' :: (',' :: joinSep ',' ((g :: fs2).map csvField)) from rfl,
        parseCSVRowAux_open_quote cur f (',' :: joinSep ',' ((g :: fs2).map csvField)),
        parseCSVRowAux_quoted f (',' :: joinSep ',' ((g :: fs2).map csvField)) cur
          (by simp),
        parseCSVRowAux_comma, ih g []]
      simp
    · have hc : ',' ∉ f := fun hm => h (by simp; exact Or.inl hm)
      have hq : '"' ∉ f := fun hm => h (by simp; exact Or.inr hm)
      rw [csvField_eq_self f hc hq,
        parseCSVRowAux_unquoted f (',' :: joinSep ',' ((g :: fs2).map csvField)) cur
          hc hq,
        parseCSVRowAux_comma, ih g []]
      simp

/-- Parsing one encoded record recovers its fields: the record-level CSV
round trip. -/
theorem parseCSVRow_encoded (f : List Char) (fs : List (List Char)) :
    parseCSVRow (joinSep ',' ((f :: fs).map csvField)) = f :: fs := by
  rw [show parseCSVRow (joinSep ',' ((f :: fs).map csvField)) =
      parseCSVRowAux [] false (joinSep ',' ((f :: fs).map csvField)) from rfl,
    parseCSVRowAux_encoded fs f []]
  simp

/-- Splitting a separator-free string yields the string alone. -/
theorem splitOnChar_no_sep (sep : Char) :
    ∀ (x : List Char), sep ∉ x → splitOnChar sep x = [x] := by
  intro x
  induction x with
  | nil =>
    intro _
    rfl
  | cons c x2 ih =>
    intro hx
    have h2 : splitOnChar sep x2 = [x2] := ih (fun hm => hx (List.mem_cons_of_mem _ hm))
    have hunfold : splitOnChar sep (c :: x2) =
        if c = sep then [] :: x2 :: [] else (c :: x2) :: [] := by
      rw [show splitOnChar sep (c :: x2) =
        (match splitOnChar sep x2 with
         | [] => [[]]
         | h :: t => if c = sep then [] :: h :: t else (c :: h) :: t) from rfl, h2]
    rw [hunfold, if_neg (fun h => hx (by rw [h]; exact List.mem_cons_self _ _))]

/-- Splitting a string that opens with a separator-free piece peels the
piece off. -/
theorem splitOnChar_cons_sep (sep : Char) :
    ∀ (x t : List Char), sep ∉ x →
      splitOnChar sep (x ++ sep :: t) = x :: splitOnChar sep t := by
  intro x
  induction x with
  | nil =>
    intro t _
    rcases hsp : splitOnChar sep t with _ | ⟨h1, t1⟩
    · exact absurd hsp (splitOnChar_ne_nil sep t)
    · have hunfold : splitOnChar sep (sep :: t) =
          if sep = sep then [] :: h1 :: t1 else (sep :: h1) :: t1 := by
        rw [show splitOnChar sep (sep :: t) =
          (match splitOnChar sep t with
           | [] => [[]]
           | h :: t2 => if sep = sep then [] :: h :: t2 else (sep :: h) :: t2) from rfl,
          hsp]
      rw [List.nil_append, hunfold, if_pos rfl]
  | cons c x2 ih =>
    intro t hx
    have h2 := ih t (fun hm => hx (List.mem_cons_of_mem _ hm))
    have hunfold : splitOnChar sep (c :: (x2 ++ sep :: t)) =
        if c = sep then [] :: x2 :: splitOnChar sep t
        else (c :: x2) :: splitOnChar sep t := by
      rw [show splitOnChar sep (c :: (x2 ++ sep :: t)) =
        (match splitOnChar sep (x2 ++ sep :: t) with
         | [] => [[]]
         | h :: t2 => if c = sep then [] :: h :: t2 else (c :: h) :: t2) from rfl,
        h2]
    rw [List.cons_append, hunfold,
      if_neg (fun h => hx (by rw [h]; exact List.mem_cons_self _ _))]

/-- Splitting the separator-join of separator-free lines recovers them. -/
theorem splitOnChar_joinSep (sep : Char) :
    ∀ (ls : List (List Char)) (l : List Char), (∀ q ∈ l :: ls, sep ∉ q) →
      splitOnChar sep (joinSep sep (l :: ls)) = l :: ls := by
  intro ls
  induction ls with
  | nil =>
    intro l hl
    exact splitOnChar_no_sep sep l (hl l (List.mem_cons_self _ _))
  | cons y t ih =>
    intro l hl
    rw [show joinSep sep (l :: y :: t) = l ++ sep :: joinSep sep (y :: t) from rfl,
      splitOnChar_cons_sep sep l (joinSep sep (y :: t)) (hl l (List.mem_cons_self _ _)),
      ih y (fun q hq => hl q (List.mem_cons_of_mem _ hq))]

/-- Characters of the escaped body come from the cell or are quotes. -/
theorem mem_escQuotes (c : Char) :
    ∀ (s : List Char), c ∈ escQuotes s → c ∈ s ∨ c = '"' := by
  intro s
  induction s with
  | nil =>
    intro h
    simp [escQuotes] at h
  | cons d s2 ih =>
    intro h
    rw [show escQuotes (d :: s2) =
        (if d = '"' then '"' :: '"' :: escQuotes s2 else d :: escQuotes s2) from rfl] at h
    by_cases hd : d = '"'
    · rw [if_pos hd] at h
      rcases List.mem_cons.mp h with rfl | h
      · exact Or.inr rfl
      · rcases List.mem_cons.mp h with rfl | h
        · exact Or.inr rfl
        · rcases ih h with h | h
          · exact Or.inl (List.mem_cons_of_mem _ h)
          · exact Or.inr h
    · rw [if_neg hd] at h
      rcases List.mem_cons.mp h with rfl | h
      · exact Or.inl (List.mem_cons_self _ _)
      · rcases ih h with h | h
        · exact Or.inl (List.mem_cons_of_mem _ h)
        · exact Or.inr h

/-- Characters of an encoded cell come from the cell or are quotes. -/
theorem mem_csvField (c : Char) (s : List Char) (h : c ∈ csvField s) :
    c ∈ s ∨ c = '"' := by
  unfold csvField at h
  by_cases hq : (s.contains ',' || s.contains '"') = true
  · rw [if_pos hq] at h
    rcases List.mem_cons.mp h with rfl | h
    · exact Or.inr rfl
    · rcases List.mem_append.mp h with h | h
      · exact mem_escQuotes c s h
      · exact Or.inr (List.mem_singleton.mp h)
  · rw [if_neg hq] at h
    exact Or.inl h

/-- Characters of a join come from the pieces or are the separator. -/
theorem mem_joinSep (sep c : Char) :
    ∀ (ls : List (List Char)), c ∈ joinSep sep ls → c = sep ∨ ∃ l ∈ ls, c ∈ l := by
  intro ls
  induction ls with
  | nil =>
    intro h
    simp [joinSep] at h
  | cons x xs ih =>
    intro h
    cases xs with
    | nil =>
      rw [show joinSep sep [x] = x from rfl] at h
      exact Or.inr ⟨x, List.mem_singleton.mpr rfl, h⟩
    | cons y t =>
      rw [show joinSep sep (x :: y :: t) = x ++ sep :: joinSep sep (y :: t) from rfl] at h
      rcases List.mem_append.mp h with h | h
      · exact Or.inr ⟨x, List.mem_cons_self _ _, h⟩
      · rcases List.mem_cons.mp h with rfl | h
        · exact Or.inl rfl
        · rcases ih h with h | ⟨l, hl, hcl⟩
          · exact Or.inl h
          · exact Or.inr ⟨l, List.mem_cons_of_mem _ hl, hcl⟩

/-- A string whose ends are not whitespace is its own trim. -/
theorem trimChars_eq_self (l : List Char)
    (hh : ∀ c, l.head? = some c → isWSChar c = false)
    (hl : ∀ c, l.getLast? = some c → isWSChar c = false) :
    trimChars l = l := by
  have h1 : l.dropWhile isWSChar = l := by
    cases l with
    | nil => rfl
    | cons c t =>
      rw [List.dropWhile_cons, if_neg]
      rw [hh c rfl]
      simp
  unfold trimChars
  rw [h1]
  have h2 : l.reverse.dropWhile isWSChar = l.reverse := by
    cases hr : l.reverse with
    | nil => rfl
    | cons c t =>
      rw [List.dropWhile_cons, if_neg]
      have : l.getLast? = some c := by
        rw [← List.head?_reverse, hr]
        rfl
      rw [hl c this]
      simp
  rw [h2, List.reverse_reverse]

/-- Trim-stability forces a non-whitespace first character. -/
theorem head_not_ws_of_trim_self (l : List Char) (ht : trimChars l = l)
    (c : Char) (hc : l.head? = some c) : isWSChar c = false := by
  by_contra hws
  rw [Bool.not_eq_false] at hws
  cases l with
  | nil => simp at hc
  | cons d t =>
    have hd : d = c := by simpa using hc
    subst hd
    have hlen : (trimChars (d :: t)).length < (d :: t).length := by
      unfold trimChars
      rw [List.dropWhile_cons, if_pos (by rw [hws])]
      calc ((List.dropWhile isWSChar t).reverse.dropWhile isWSChar).reverse.length
          ≤ (List.dropWhile isWSChar t).reverse.length := by
            rw [List.length_reverse]
            exact List.Sublist.length_le (List.dropWhile_sublist _)
        _ ≤ t.length := by
            rw [List.length_reverse]
            exact List.Sublist.length_le (List.dropWhile_sublist _)
        _ < (d :: t).length := by simp
    rw [ht] at hlen
    exact lt_irrefl _ hlen

/-- Trim-stability forces a non-whitespace last character. -/
theorem last_not_ws_of_trim_self (l : List Char) (ht : trimChars l = l)
    (c : Char) (hc : l.getLast? = some c) : isWSChar c = false := by
  by_contra hws
  rw [Bool.not_eq_false] at hws
  have h1 : l.dropWhile isWSChar = l := by
    by_contra hne
    have hlen : (trimChars l).length < l.length := by
      unfold trimChars
      have hlt : (l.dropWhile isWSChar).length < l.length :=
        lt_of_le_of_ne (List.Sublist.length_le (List.dropWhile_sublist _))
          (fun he => hne (List.Sublist.eq_of_length (List.dropWhile_sublist _) he))
      calc ((List.dropWhile isWSChar l).reverse.dropWhile isWSChar).reverse.length
          ≤ (List.dropWhile isWSChar l).reverse.length := by
            rw [List.length_reverse]
            exact List.Sublist.length_le (List.dropWhile_sublist _)
        _ = (List.dropWhile isWSChar l).length := List.length_reverse _
        _ < l.length := hlt
    rw [ht] at hlen
    exact lt_irrefl _ hlen
  have h2 : (l.reverse.dropWhile isWSChar).length < l.reverse.length := by
    cases hr : l.reverse with
    | nil =>
      exfalso
      have : l = [] := by simpa using congrArg List.reverse hr
      subst this
      simp at hc
    | cons d t =>
      have hd : d = c := by
        have : l.reverse.head? = some c := by rw [List.head?_reverse]; exact hc
        rw [hr] at this
        simpa using this
      subst hd
      rw [List.dropWhile_cons, if_pos (by rw [hws])]
      calc (List.dropWhile isWSChar t).length ≤ t.length :=
          List.Sublist.length_le (List.dropWhile_sublist _)
        _ < (d :: t).length := by simp
  have hlen : (trimChars l).length < l.length := by
    unfold trimChars
    rw [h1]
    calc (l.reverse.dropWhile isWSChar).reverse.length
        = (l.reverse.dropWhile isWSChar).length := List.length_reverse _
      _ < l.reverse.length := h2
      _ = l.length := List.length_reverse _
  rw [ht] at hlen
  exact lt_irrefl _ hlen

/-- A join of non-empty pieces is non-empty. -/
theorem joinSep_ne_nil (sep : Char) :
    ∀ (ps : List (List Char)) (p : List Char), (∀ q ∈ p :: ps, q ≠ []) →
      joinSep sep (p :: ps) ≠ [] := by
  intro ps p hq
  cases ps with
  | nil => exact hq p (List.mem_cons_self _ _)
  | cons y t => simp [joinSep]

/-- The first character of a join is the first character of its first
(non-empty) piece. -/
theorem head_joinSep (sep : Char) (ps : List (List Char)) (p : List Char)
    (hp : p ≠ []) : (joinSep sep (p :: ps)).head? = p.head? := by
  cases ps with
  | nil => rfl
  | cons y t =>
    rw [show joinSep sep (p :: y :: t) = p ++ sep :: joinSep sep (y :: t) from rfl,
      List.head?_append_of_ne_nil _ hp]

/-- The last character of a join of non-empty pieces is the last character
of one of them. -/
theorem getLast_joinSep_mem (sep : Char) :
    ∀ (ps : List (List Char)) (p : List Char), (∀ q ∈ p :: ps, q ≠ []) →
      ∃ q ∈ p :: ps, (joinSep sep (p :: ps)).getLast? = q.getLast? := by
  intro ps
  induction ps with
  | nil =>
    intro p _
    exact ⟨p, List.mem_cons_self _ _, rfl⟩
  | cons y t ih =>
    intro p hq
    obtain ⟨q, hqm, hqe⟩ := ih y (fun x hx => hq x (List.mem_cons_of_mem _ hx))
    refine ⟨q, List.mem_cons_of_mem _ hqm, ?_⟩
    rw [show joinSep sep (p :: y :: t) = p ++ sep :: joinSep sep (y :: t) from rfl,
      List.getLast?_append_of_ne_nil _ (List.cons_ne_nil sep _),
      show (sep :: joinSep sep (y :: t) : List Char) =
        [sep] ++ joinSep sep (y :: t) from rfl,
      List.getLast?_append_of_ne_nil _
        (joinSep_ne_nil sep t y (fun x hx => hq x (List.mem_cons_of_mem _ hx))), hqe]

/-- An encoded cell of a non-empty cell is non-empty. -/
theorem csvField_ne_nil (s : List Char) (hs : s ≠ []) : csvField s ≠ [] := by
  unfold csvField
  by_cases h : (s.contains ',' || s.contains '"') = true
  · rw [if_pos h]
    simp
  · rw [if_neg h]
    exact hs

/-- The first character of an encoded cell is never whitespace when the cell
is quoted-encodable or trim-stable. -/
theorem csvField_head_not_ws (s : List Char)
    (hs : ',' ∈ s ∨ '"' ∈ s ∨ trimChars s = s) :
    ∀ c, (csvField s).head? = some c → isWSChar c = false := by
  intro c hc
  unfold csvField at hc
  by_cases h : (s.contains ',' || s.contains '"') = true
  · rw [if_pos h] at hc
    simp at hc
    rw [← hc]
    decide
  · rw [if_neg h] at hc
    have hts : trimChars s = s := by
      rcases hs with hm | hm | hm
      · exact absurd (by simp; exact Or.inl hm : (s.contains ',' ||
          s.contains '"') = true) h
      · exact absurd (by simp; exact Or.inr hm : (s.contains ',' ||
          s.contains '"') = true) h
      · exact hm
    exact head_not_ws_of_trim_self s hts c hc

/-- The last character of an encoded cell is never whitespace when the cell
is quoted-encodable or trim-stable. -/
theorem csvField_last_not_ws (s : List Char)
    (hs : ',' ∈ s ∨ '"' ∈ s ∨ trimChars s = s) :
    ∀ c, (csvField s).getLast? = some c → isWSChar c = false := by
  intro c hc
  unfold csvField at hc
  by_cases h : (s.contains ',' || s.contains '"') = true
  · rw [if_pos h,
      show ('"' :: (escQuotes s ++ ['"']) : List Char) =
        ('"' :: escQuotes s) ++ ['"'] from by simp,
      List.getLast?_append_of_ne_nil _ (List.cons_ne_nil '"' [])] at hc
    simp at hc
    rw [← hc]
    decide
  · rw [if_neg h] at hc
    have hts : trimChars s = s := by
      rcases hs with hm | hm | hm
      · exact absurd (by simp; exact Or.inl hm : (s.contains ',' ||
          s.contains '"') = true) h
      · exact absurd (by simp; exact Or.inr hm : (s.contains ',' ||
          s.contains '"') = true) h
      · exact hm
    exact last_not_ws_of_trim_self s hts c hc

/-- A line joined from clean pieces is newline-free, trim-stable and
non-blank. -/
theorem joinSep_line_clean (ps : List (List Char)) (p : List Char)
    (hq : ∀ q ∈ p :: ps, q ≠ [] ∧ '\n' ∉ q ∧
      (∀ c, q.head? = some c → isWSChar c = false) ∧
      (∀ c, q.getLast? = some c → isWSChar c = false)) :
    '\n' ∉ joinSep ',' (p :: ps) ∧
      trimChars (joinSep ',' (p :: ps)) = joinSep ',' (p :: ps) ∧
      joinSep ',' (p :: ps) ≠ [] := by
  refine ⟨?_, ?_, joinSep_ne_nil ',' ps p (fun q hm => (hq q hm).1)⟩
  · intro hm
    rcases mem_joinSep ',' '\n' (p :: ps) hm with h | ⟨l, hl, hcl⟩
    · exact absurd h (by decide)
    · exact (hq l hl).2.1 hcl
  · apply trimChars_eq_self
    · intro c hc
      rw [head_joinSep ',' ps p (hq p (List.mem_cons_self _ _)).1] at hc
      exact (hq p (List.mem_cons_self _ _)).2.2.1 c hc
    · intro c hc
      obtain ⟨q, hqm, hqe⟩ := getLast_joinSep_mem ',' ps p (fun q hm => (hq q hm).1)
      rw [hqe] at hc
      exact (hq q hqm).2.2.2 c hc

/-- Reading the cells of a record object by its own keys returns its
values. -/
theorem cellString_rowToJ :
    ∀ (r : List (List Char × List Char)), (r.map (fun kv => kv.1)).Nodup →
      (r.map (fun kv => kv.1)).map (fun h => cellString (rowToJ r) h) =
        r.map (fun kv => kv.2) := by
  intro r
  induction r with
  | nil =>
    intro _
    rfl
  | cons kv r2 ih =>
    intro hnd
    rw [List.map_cons, List.map_cons, List.map_cons]
    have hhead : cellString (rowToJ (kv :: r2)) kv.1 = kv.2 := by
      rw [show rowToJ (kv :: r2) =
          .jobj ((kv.1, JValue.jstr kv.2) :: r2.map (fun x => (x.1, JValue.jstr x.2)))
        from rfl]
      rw [show cellString (.jobj ((kv.1, JValue.jstr kv.2) ::
          r2.map (fun x => (x.1, JValue.jstr x.2)))) kv.1 =
        (match (List.find? (fun p => p.1 == kv.1)
            ((kv.1, JValue.jstr kv.2) :: r2.map (fun x => (x.1, JValue.jstr x.2)))).map
            (fun p => p.2) with
         | some .jnull => []
         | some v => jToString v
         | none => []) from rfl]
      rw [List.find?_cons_of_pos _ (by simp)]
      rfl
    rw [hhead]
    congr 1
    have htail : ∀ h ∈ r2.map (fun kv => kv.1),
        cellString (rowToJ (kv :: r2)) h = cellString (rowToJ r2) h := by
      intro h hm
      have hne : kv.1 ≠ h := by
        intro he
        exact (List.nodup_cons.mp (by simpa using hnd)).1 (he ▸ hm)
      rw [show rowToJ (kv :: r2) =
          .jobj ((kv.1, JValue.jstr kv.2) :: r2.map (fun x => (x.1, JValue.jstr x.2)))
        from rfl]
      rw [show cellString (.jobj ((kv.1, JValue.jstr kv.2) ::
          r2.map (fun x => (x.1, JValue.jstr x.2)))) h =
        (match (List.find? (fun p => p.1 == h)
            ((kv.1, JValue.jstr kv.2) :: r2.map (fun x => (x.1, JValue.jstr x.2)))).map
            (fun p => p.2) with
         | some .jnull => []
         | some v => jToString v
         | none => []) from rfl]
      rw [List.find?_cons_of_neg _ (by simp [hne])]
      rfl
    rw [List.map_eq_map_iff.mpr htail]
    exact ih (List.nodup_cons.mp (by simpa using hnd)).2

/-- Rebuilding a record from its own keys and values gives back its
fields. -/
theorem mkRowFields_rowToJ (r : List (List Char × List Char))
    (hnd : (r.map (fun kv => kv.1)).Nodup) :
    mkRowFields (r.map (fun kv => kv.1)) (r.map (fun kv => kv.2)) =
      r.map (fun kv => (kv.1, JValue.jstr kv.2)) := by
  rw [mkRowFields_eq_zip _ _ hnd, List.zip_map' _ _ r, List.map_map]
  rfl

/-- Parsing one encoded record of a non-empty field list recovers it. -/
theorem parseCSVRow_encoded_of_ne_nil (fs : List (List Char)) (hne : fs ≠ []) :
    parseCSVRow (joinSep ',' (fs.map csvField)) = fs := by
  cases fs with
  | nil => exact absurd rfl hne
  | cons f fs2 => exact parseCSVRow_encoded f fs2

/-- `joinSep_line_clean` stated for any non-empty piece list. -/
theorem joinSep_line_clean2 (ls : List (List Char)) (hne : ls ≠ [])
    (hq : ∀ q ∈ ls, q ≠ [] ∧ '\n' ∉ q ∧
      (∀ c, q.head? = some c → isWSChar c = false) ∧
      (∀ c, q.getLast? = some c → isWSChar c = false)) :
    '\n' ∉ joinSep ',' ls ∧ trimChars (joinSep ',' ls) = joinSep ',' ls ∧
      joinSep ',' ls ≠ [] := by
  cases ls with
  | nil => exact absurd rfl hne
  | cons p ps => exact joinSep_line_clean ps p hq

/-- C4 (amended): the CSV round trip `parse(encode(rows)) = rows` for a
non-empty list of uniform flat string records: all rows share one non-empty,
duplicate-free key list; keys carry no comma, quote or newline and no
surrounding whitespace; values carry no newline, are non-empty, and are
either quoted-encodable (contain a comma or quote, covered by RFC-4180-style
escaping) or free of leading/trailing whitespace (which `parseCSVContent`'s
line-trimming would otherwise strip). -/
theorem c4_csv_roundtrip (r0 : List (List Char × List Char))
    (rest : List (List (List Char × List Char))) (ks : List (List Char))
    (hks : ∀ r ∈ r0 :: rest, r.map (fun kv => kv.1) = ks)
    (hnd : ks.Nodup) (hkne : ks ≠ [])
    (hkeys : ∀ k ∈ ks, k ≠ [] ∧ ',' ∉ k ∧ '"' ∉ k ∧ '\n' ∉ k ∧ trimChars k = k)
    (hvals : ∀ r ∈ r0 :: rest, ∀ kv ∈ r, kv.2 ≠ [] ∧ '\n' ∉ kv.2 ∧
      (',' ∈ kv.2 ∨ '"' ∈ kv.2 ∨ trimChars kv.2 = kv.2)) :
    parseCSVContent (convertArrayToCSV ((r0 :: rest).map rowToJ)) =
      .ok ((r0 :: rest).map rowToJ) := by
  have hr0k : r0.map (fun kv => kv.1) = ks := hks r0 (List.mem_cons_self _ _)
  have hrne : ∀ r ∈ r0 :: rest, r ≠ [] := by
    intro r hr he
    apply hkne
    rw [← hks r hr, he]
    rfl
  have hkeys0 : jKeys (rowToJ r0) = ks := by
    rw [show jKeys (rowToJ r0) =
        (r0.map (fun kv => (kv.1, JValue.jstr kv.2))).map (fun p => p.1) from rfl,
      List.map_map]
    exact hr0k
  have hline : ∀ r ∈ r0 :: rest,
      joinSep ',' (ks.map (fun h => csvField (cellString (rowToJ r) h))) =
        joinSep ',' ((r.map (fun kv => kv.2)).map csvField) := by
    intro r hr
    congr 1
    calc ks.map (fun h => csvField (cellString (rowToJ r) h))
        = (r.map (fun kv => kv.1)).map (fun h => csvField (cellString (rowToJ r) h)) := by
          rw [hks r hr]
      _ = ((r.map (fun kv => kv.1)).map (fun h => cellString (rowToJ r) h)).map
            csvField := by
          simp only [List.map_map]
          rfl
      _ = (r.map (fun kv => kv.2)).map csvField := by
          rw [cellString_rowToJ r (by rw [hks r hr]; exact hnd)]
  have hencode : convertArrayToCSV ((r0 :: rest).map rowToJ) =
      joinSep '\n' (joinSep ',' ks ::
        (r0 :: rest).map (fun r => joinSep ',' ((r.map (fun kv => kv.2)).map csvField))) := by
    rw [List.map_cons]
    rw [show convertArrayToCSV (rowToJ r0 :: rest.map rowToJ) =
        joinSep '\n' (joinSep ',' (jKeys (rowToJ r0)) ::
          (rowToJ r0 :: rest.map rowToJ).map (fun row =>
            joinSep ',' ((jKeys (rowToJ r0)).map (fun h => csvField (cellString row h)))))
      from rfl]
    rw [hkeys0]
    congr 1
    congr 1
    rw [show (rowToJ r0 :: rest.map rowToJ) = (r0 :: rest).map rowToJ from rfl,
      List.map_map]
    exact List.map_eq_map_iff.mpr fun r hr => hline r hr
  have hdrfacts := joinSep_line_clean2 ks hkne (fun k hk =>
    ⟨(hkeys k hk).1, (hkeys k hk).2.2.2.1,
     fun c hc => head_not_ws_of_trim_self k (hkeys k hk).2.2.2.2 c hc,
     fun c hc => last_not_ws_of_trim_self k (hkeys k hk).2.2.2.2 c hc⟩)
  have hdataf : ∀ r ∈ r0 :: rest,
      '\n' ∉ joinSep ',' ((r.map (fun kv => kv.2)).map csvField) ∧
      trimChars (joinSep ',' ((r.map (fun kv => kv.2)).map csvField)) =
        joinSep ',' ((r.map (fun kv => kv.2)).map csvField) ∧
      joinSep ',' ((r.map (fun kv => kv.2)).map csvField) ≠ [] := by
    intro r hr
    apply joinSep_line_clean2
    · intro he
      apply hrne r hr
      simpa using he
    · intro q hqm
      rw [List.mem_map] at hqm
      obtain ⟨v, hvm, rfl⟩ := hqm
      rw [List.mem_map] at hvm
      obtain ⟨kv, hkvm, rfl⟩ := hvm
      obtain ⟨h1, h2, h3⟩ := hvals r hr kv hkvm
      refine ⟨csvField_ne_nil _ h1, ?_, csvField_head_not_ws _ h3,
        csvField_last_not_ws _ h3⟩
      intro hm
      rcases mem_csvField '\n' _ hm with hm | hm
      · exact h2 hm
      · exact absurd hm (by decide)
  have hclean : cleanLines (convertArrayToCSV ((r0 :: rest).map rowToJ)) =
      joinSep ',' ks ::
        (r0 :: rest).map (fun r => joinSep ',' ((r.map (fun kv => kv.2)).map csvField)) := by
    rw [hencode]
    unfold cleanLines
    rw [splitOnChar_joinSep '\n'
        ((r0 :: rest).map (fun r => joinSep ',' ((r.map (fun kv => kv.2)).map csvField)))
        (joinSep ',' ks)
        (by
          intro q hqm
          rcases List.mem_cons.mp hqm with rfl | hqm
          · exact hdrfacts.1
          · rw [List.mem_map] at hqm
            obtain ⟨r, hr, rfl⟩ := hqm
            exact (hdataf r hr).1)]
    have htrim : ∀ x ∈ joinSep ',' ks ::
        (r0 :: rest).map (fun r => joinSep ',' ((r.map (fun kv => kv.2)).map csvField)),
        trimChars x = x := by
      intro x hx
      rcases List.mem_cons.mp hx with rfl | hx
      · exact hdrfacts.2.1
      · rw [List.mem_map] at hx
        obtain ⟨r, hr, rfl⟩ := hx
        exact (hdataf r hr).2.1
    have hne2 : ∀ x ∈ joinSep ',' ks ::
        (r0 :: rest).map (fun r => joinSep ',' ((r.map (fun kv => kv.2)).map csvField)),
        x ≠ [] := by
      intro x hx
      rcases List.mem_cons.mp hx with rfl | hx
      · exact hdrfacts.2.2
      · rw [List.mem_map] at hx
        obtain ⟨r, hr, rfl⟩ := hx
        exact (hdataf r hr).2.2
    rw [show (joinSep ',' ks ::
        (r0 :: rest).map (fun r => joinSep ',' ((r.map (fun kv => kv.2)).map csvField))).map
          trimChars =
        (joinSep ',' ks ::
        (r0 :: rest).map (fun r => joinSep ',' ((r.map (fun kv => kv.2)).map csvField))).map
          id from List.map_eq_map_iff.mpr (fun x hx => by rw [htrim x hx]; rfl),
      List.map_id]
    exact List.filter_eq_self.mpr fun x hx => by
      cases hxx : x with
      | nil => exact absurd hxx (hne2 x hx)
      | cons a t => rfl
  rw [show parseCSVContent (convertArrayToCSV ((r0 :: rest).map rowToJ)) =
      (match cleanLines (convertArrayToCSV ((r0 :: rest).map rowToJ)) with
       | [] => Except.error "CSV file is empty".data
       | [_] => Except.error "CSV file contains only headers, no data rows".data
       | l0 :: rest2 => parseCSVRecords (parseCSVRow l0) 0 rest2) from rfl, hclean,
    List.map_cons]
  show parseCSVRecords (parseCSVRow (joinSep ',' ks)) 0
      (joinSep ',' ((r0.map (fun kv => kv.2)).map csvField) ::
        rest.map (fun r => joinSep ',' ((r.map (fun kv => kv.2)).map csvField))) =
    .ok ((r0 :: rest).map rowToJ)
  have hkfield : ks.map csvField = ks := by
    have h1 : ks.map csvField = ks.map id := List.map_eq_map_iff.mpr fun k hk => by
      rw [csvField_eq_self k (hkeys k hk).2.1 (hkeys k hk).2.2.1]
      rfl
    rw [h1, List.map_id]
  have hhdr : parseCSVRow (joinSep ',' ks) = ks := by
    conv_lhs => rw [← hkfield]
    exact parseCSVRow_encoded_of_ne_nil ks hkne
  have hrowparse : ∀ r ∈ r0 :: rest,
      parseCSVRow (joinSep ',' ((r.map (fun kv => kv.2)).map csvField)) =
        r.map (fun kv => kv.2) := by
    intro r hr
    apply parseCSVRow_encoded_of_ne_nil
    intro he
    apply hrne r hr
    simpa using he
  rw [hhdr]
  have hlen : ∀ line ∈ joinSep ',' ((r0.map (fun kv => kv.2)).map csvField) ::
      rest.map (fun r => joinSep ',' ((r.map (fun kv => kv.2)).map csvField)),
      (parseCSVRow line).length = ks.length := by
    intro line hm
    have hm2 : line ∈ (r0 :: rest).map
        (fun r => joinSep ',' ((r.map (fun kv => kv.2)).map csvField)) := by
      rw [List.map_cons]
      exact hm
    rw [List.mem_map] at hm2
    obtain ⟨r, hr, rfl⟩ := hm2
    rw [hrowparse r hr, List.length_map, ← hks r hr, List.length_map]
  rw [parseCSVRecords_ok ks _ 0 hlen]
  congr 1
  rw [show (joinSep ',' ((r0.map (fun kv => kv.2)).map csvField) ::
      rest.map (fun r => joinSep ',' ((r.map (fun kv => kv.2)).map csvField))) =
      (r0 :: rest).map (fun r => joinSep ',' ((r.map (fun kv => kv.2)).map csvField))
    from (List.map_cons
      (fun r => joinSep ',' ((r.map (fun kv => kv.2)).map csvField)) r0 rest).symm,
    List.map_map]
  apply List.map_eq_map_iff.mpr
  intro r hr
  show JValue.jobj (mkRowFields ks
    (parseCSVRow (joinSep ',' ((r.map (fun kv => kv.2)).map csvField)))) = rowToJ r
  rw [hrowparse r hr, ← hks r hr,
    mkRowFields_rowToJ r (by rw [hks r hr]; exact hnd)]
  rfl

/-- C4 witness: the spec's own escaping example — a record with an embedded
comma and embedded quotes — round trips. -/
theorem c4_csv_roundtrip_witness :
    parseCSVContent (convertArrayToCSV
      ([[("name".data, "John, Jr.".data), ("note".data, "He said \"hi\"".data)]].map
        rowToJ)) =
      .ok ([[("name".data, "John, Jr.".data),
        ("note".data, "He said \"hi\"".data)]].map rowToJ) :=
  c4_csv_roundtrip
    [("name".data, "John, Jr.".data), ("note".data, "He said \"hi\"".data)] []
    ["name".data, "note".data] (by decide) (by decide) (by decide) (by decide)
    (by decide)

/-- C4 (counterexample): the round trip fails as claimed for values with no
embedded delimiters.  A leading space in a cell is stripped by the parser's
per-line `trim`, so `[{a:" x"}]` comes back as `[{a:"x"}]`; and the empty
cell of `[{a:""}]` produces a blank line that the parser drops, leaving a
header-only file. -/
theorem c4_counterexample :
    parseCSVContent (convertArrayToCSV [rowToJ [("a".data, " x".data)]]) =
      .ok [.jobj [("a".data, .jstr "x".data)]] ∧
    parseCSVContent (convertArrayToCSV [rowToJ [("a".data, " x".data)]]) ≠
      .ok [rowToJ [("a".data, " x".data)]] ∧
    parseCSVContent (convertArrayToCSV [rowToJ [("a".data, [])]]) =
      .error "CSV file contains only headers, no data rows".data := by
  refine ⟨rfl, ?_, rfl⟩
  intro h
  have h2 := congrArg (fun e => match e with
    | Except.ok [JValue.jobj [(_, JValue.jstr s)]] => s
    | _ => ([] : List Char)) h
  exact absurd h2 (by decide)

end AbstractMcp
